import Mathlib

/-!
Verification of the class-roster normalization engine.

Python strings are modelled as lists of character codes (`PStr`), with the
ASCII case semantics of the string methods the source uses (`strip`, `lower`,
`upper`, `title`, `capitalize`, `isupper`, `replace`, `split`, `in`,
`startswith`).  `None` cells and empty-string cells are both falsy in the
source and are both modelled as the empty list.  Dictionaries are modelled as
association lists in insertion order, `insertA` giving the update-in-place
semantics of a Python dict assignment.
-/

/-- Model of a Python string: the list of its character code points. -/
abbrev PStr := List Nat

/-- Encode a Lean string literal as a `PStr`. -/
def pstr (s : String) : PStr := s.toList.map Char.toNat

/-- Whitespace test matching Python `str.strip` for the ASCII range. -/
def isWS (n : Nat) : Bool := n == 32 || n == 9 || n == 10 || n == 13 || n == 11 || n == 12

/-- Lower-case ASCII letter test. -/
def isLowerC (n : Nat) : Bool := 97 ≤ n && n ≤ 122

/-- Upper-case ASCII letter test. -/
def isUpperC (n : Nat) : Bool := 65 ≤ n && n ≤ 90

/-- Letter test (a cased character in the ASCII range). -/
def isAlphaC (n : Nat) : Bool := isLowerC n || isUpperC n

/-- Digit test. -/
def isDigitC (n : Nat) : Bool := 48 ≤ n && n ≤ 57

/-- Upper-case a single character code. -/
def toUpperC (n : Nat) : Nat := if isLowerC n then n - 32 else n

/-- Lower-case a single character code. -/
def toLowerC (n : Nat) : Nat := if isUpperC n then n + 32 else n

/-- Model of Python `str.strip()`. -/
def pyStrip (s : PStr) : PStr := ((s.dropWhile isWS).reverse.dropWhile isWS).reverse

/-- Model of Python `str.lower()`. -/
def pyLower (s : PStr) : PStr := s.map toLowerC

/-- Model of Python `str.isupper()`: at least one cased character and no
lower-case character. -/
def pyIsUpper (s : PStr) : Bool := s.any isAlphaC && s.all (fun c => !isLowerC c)

/-- Worker for `pyTitle`; the flag records whether the previous character was
alphabetic. -/
def pyTitleGo (p : Bool) : PStr → PStr
  | [] => []
  | c :: t =>
    (if isAlphaC c then (if p then toLowerC c else toUpperC c) else c) :: pyTitleGo (isAlphaC c) t

/-- Model of Python `str.title()`: the first letter of each maximal run of
letters is upper-cased, the others lower-cased. -/
def pyTitle (s : PStr) : PStr := pyTitleGo false s

/-- Model of Python `str.capitalize()`: first character upper-cased, the rest
lower-cased. -/
def pyCapitalize : PStr → PStr
  | [] => []
  | c :: t => toUpperC c :: t.map toLowerC

/-- Model of Python `str.split(sep)` for a one-character separator. -/
def splitOnC (sep : Nat) : PStr → List PStr
  | [] => [[]]
  | c :: t =>
    match splitOnC sep t with
    | [] => [[]]
    | h :: r => if c = sep then [] :: h :: r else (c :: h) :: r

/-- Containment of an upper- or lower-case letter O followed by an apostrophe,
modelling the test `"O\x27" in name or "o\x27" in name` of
`_fix_name_capitalization`. -/
def hasOApos : PStr → Bool
  | a :: b :: t => ((a == 79 || a == 111) && b == 39) || hasOApos (b :: t)
  | _ => false

/-- The apostrophe rewrite inside `_fix_name_capitalization`: when the name
splits on the apostrophe into exactly two parts and the first part upper-cases
to O, rebuild as capital O, apostrophe, capitalized remainder. -/
def applyOFix (s : PStr) : PStr :=
  match splitOnC 39 s with
  | [p0, p1] => if p0 = [79] ∨ p0 = [111] then 79 :: 39 :: pyCapitalize p1 else s
  | _ => s

/-- Model of `JSONUniversalCleaningStage._fix_name_capitalization` (the
`elif`-chained variant): a name starting with Mc and longer than 2 gets its
third character upper-cased; else a name starting with Mac and longer than 3
gets its fourth character upper-cased; else the apostrophe rewrite.
Code points: M = 77, c = 99, a = 97. -/
def fixNameCapitalization (s : PStr) : PStr :=
  match s with
  | a :: b :: c :: d :: t =>
    if a = 77 ∧ b = 99 then a :: b :: toUpperC c :: d :: t
    else if a = 77 ∧ b = 97 ∧ c = 99 then a :: b :: c :: toUpperC d :: t
    else if hasOApos (a :: b :: c :: d :: t) then applyOFix (a :: b :: c :: d :: t)
    else a :: b :: c :: d :: t
  | [a, b, c] =>
    if a = 77 ∧ b = 99 then [a, b, toUpperC c]
    else if hasOApos [a, b, c] then applyOFix [a, b, c] else [a, b, c]
  | s2 => if hasOApos s2 then applyOFix s2 else s2

/-- Model of `JSONUniversalCleaningStage._clean_name`: strip, title-case when
the whole string is upper-case, then the prefix fix-ups. -/
def cleanName (s : PStr) : PStr :=
  let c := pyStrip s
  let c := if pyIsUpper c then pyTitle c else c
  fixNameCapitalization c

/-- Model of `_clean_text` (used by both stages): empty for falsy input, else
strip. -/
def cleanText (s : PStr) : PStr := pyStrip s


/-! Character-level facts, all by arithmetic on code points. -/

theorem isLowerC_iff {n : Nat} : isLowerC n = true ↔ 97 ≤ n ∧ n ≤ 122 := by
  simp [isLowerC]

theorem isUpperC_iff {n : Nat} : isUpperC n = true ↔ 65 ≤ n ∧ n ≤ 90 := by
  simp [isUpperC]

theorem isWS_iff {n : Nat} : isWS n = true ↔ n = 32 ∨ n = 9 ∨ n = 10 ∨ n = 13 ∨ n = 11 ∨ n = 12 := by
  simp [isWS]; omega

theorem isWS_toUpperC (n : Nat) : isWS (toUpperC n) = isWS n := by
  unfold toUpperC
  split
  · next h =>
    rw [isLowerC_iff] at h
    have h1 : isWS (n - 32) = false := by rw [← Bool.not_eq_true]; rw [isWS_iff]; omega
    have h2 : isWS n = false := by rw [← Bool.not_eq_true]; rw [isWS_iff]; omega
    rw [h1, h2]
  · rfl

theorem isWS_toLowerC (n : Nat) : isWS (toLowerC n) = isWS n := by
  unfold toLowerC
  split
  · next h =>
    rw [isUpperC_iff] at h
    have h1 : isWS (n + 32) = false := by rw [← Bool.not_eq_true]; rw [isWS_iff]; omega
    have h2 : isWS n = false := by rw [← Bool.not_eq_true]; rw [isWS_iff]; omega
    rw [h1, h2]
  · rfl

theorem toUpperC_idem (n : Nat) : toUpperC (toUpperC n) = toUpperC n := by
  unfold toUpperC
  split
  · next h =>
    rw [isLowerC_iff] at h
    have : isLowerC (n - 32) = false := by rw [← Bool.not_eq_true, isLowerC_iff]; omega
    simp [this]
  · rfl

theorem toLowerC_idem (n : Nat) : toLowerC (toLowerC n) = toLowerC n := by
  unfold toLowerC
  split
  · next h =>
    rw [isUpperC_iff] at h
    have : isUpperC (n + 32) = false := by rw [← Bool.not_eq_true, isUpperC_iff]; omega
    simp [this]
  · rfl

theorem toUpperC_toLowerC (n : Nat) : toUpperC (toLowerC n) = toUpperC n := by
  unfold toLowerC toUpperC
  split
  · next h =>
    rw [isUpperC_iff] at h
    have h1 : isLowerC (n + 32) = true := by rw [isLowerC_iff]; omega
    have h2 : isLowerC n = false := by rw [← Bool.not_eq_true, isLowerC_iff]; omega
    simp [h1, h2]
  · rfl

theorem toLowerC_toUpperC (n : Nat) : toLowerC (toUpperC n) = toLowerC n := by
  unfold toUpperC toLowerC
  split
  · next h =>
    rw [isLowerC_iff] at h
    have h1 : isUpperC (n - 32) = true := by rw [isUpperC_iff]; omega
    have h2 : isUpperC n = false := by rw [← Bool.not_eq_true, isUpperC_iff]; omega
    simp [h1, h2]; omega
  · rfl

theorem isAlphaC_toUpperC (n : Nat) : isAlphaC (toUpperC n) = isAlphaC n := by
  unfold toUpperC
  split
  · next h =>
    rw [isLowerC_iff] at h
    have h1 : isAlphaC (n - 32) = true := by simp [isAlphaC, isLowerC, isUpperC]; omega
    have h2 : isAlphaC n = true := by simp [isAlphaC, isLowerC, isUpperC]; omega
    rw [h1, h2]
  · rfl

theorem isAlphaC_toLowerC (n : Nat) : isAlphaC (toLowerC n) = isAlphaC n := by
  unfold toLowerC
  split
  · next h =>
    rw [isUpperC_iff] at h
    have h1 : isAlphaC (n + 32) = true := by simp [isAlphaC, isLowerC, isUpperC]; omega
    have h2 : isAlphaC n = true := by simp [isAlphaC, isLowerC, isUpperC]; omega
    rw [h1, h2]
  · rfl

theorem isLowerC_toUpperC (n : Nat) : isLowerC (toUpperC n) = false := by
  unfold toUpperC
  split
  · next h => rw [isLowerC_iff] at h; rw [← Bool.not_eq_true, isLowerC_iff]; omega
  · next h => rw [← Bool.not_eq_true]; exact h

theorem isLowerC_toLowerC (n : Nat) : isLowerC (toLowerC n) = isAlphaC n := by
  unfold toLowerC
  split
  · next h =>
    rw [isUpperC_iff] at h
    have h1 : isLowerC (n + 32) = true := by rw [isLowerC_iff]; omega
    have h2 : isAlphaC n = true := by simp [isAlphaC, isLowerC, isUpperC]; omega
    rw [h1, h2]
  · next h => simp [isAlphaC, h]

theorem toUpperC_of_not_alpha {n : Nat} (h : isAlphaC n = false) : toUpperC n = n := by
  unfold toUpperC
  have : isLowerC n = false := by simp [isAlphaC] at h; exact h.1
  simp [this]

theorem toLowerC_of_not_alpha {n : Nat} (h : isAlphaC n = false) : toLowerC n = n := by
  unfold toLowerC
  have : isUpperC n = false := by simp [isAlphaC] at h; exact h.2
  simp [this]

theorem toUpperC_ne_39 {n : Nat} (h : n ≠ 39) : toUpperC n ≠ 39 := by
  unfold toUpperC
  split
  · next hl => rw [isLowerC_iff] at hl; omega
  · exact h

theorem toLowerC_ne_39 {n : Nat} (h : n ≠ 39) : toLowerC n ≠ 39 := by
  unfold toLowerC
  split
  · next hl => rw [isUpperC_iff] at hl; omega
  · exact h

/-! Stripping: the whitespace mask of a string, and preservation lemmas. -/

/-- The whitespace mask of a string. -/
def wsMask (s : PStr) : List Bool := s.map isWS

/-- Holds when the list does not start with `true`. -/
def frontOk : List Bool → Bool
  | [] => true
  | b :: _ => !b

/-- A string with no leading and no trailing whitespace. -/
def strippedOk (s : PStr) : Prop := frontOk (wsMask s) = true ∧ frontOk (wsMask s).reverse = true

theorem wsMask_reverse (s : PStr) : wsMask s.reverse = (wsMask s).reverse := by
  simp [wsMask]

theorem frontOk_wsMask_dropWhile (s : PStr) : frontOk (wsMask (s.dropWhile isWS)) = true := by
  induction s with
  | nil => rfl
  | cons c t ih =>
    by_cases h : isWS c = true
    · simpa [List.dropWhile, h] using ih
    · simp only [Bool.not_eq_true] at h
      simp [List.dropWhile, h, wsMask, frontOk]

theorem dropWhile_eq_self_of_frontOk {s : PStr} (h : frontOk (wsMask s) = true) :
    s.dropWhile isWS = s := by
  cases s with
  | nil => rfl
  | cons c t =>
    have hc : isWS c = false := by simpa [wsMask, frontOk] using h
    simp [List.dropWhile, hc]

theorem pyStrip_strippedOk (s : PStr) : strippedOk (pyStrip s) := by
  have key : ∀ l : PStr, frontOk (wsMask l) = true →
      strippedOk ((l.reverse.dropWhile isWS).reverse) := by
    intro l hl
    constructor
    · rcases hbr : (l.reverse.dropWhile isWS).reverse with _ | ⟨c, u⟩
      · simp [wsMask, frontOk]
      · have h1 : l.reverse.takeWhile isWS ++ l.reverse.dropWhile isWS = l.reverse :=
          List.takeWhile_append_dropWhile isWS l.reverse
        have h2 : l = (l.reverse.dropWhile isWS).reverse ++ (l.reverse.takeWhile isWS).reverse := by
          conv_lhs => rw [← l.reverse_reverse, ← h1]
          rw [List.reverse_append]
        rw [hbr] at h2
        have hc : isWS c = false := by
          rw [h2] at hl
          simpa [wsMask, frontOk] using hl
        simp [wsMask, frontOk, hc]
    · rw [wsMask_reverse, List.reverse_reverse]
      exact frontOk_wsMask_dropWhile l.reverse
  exact key (s.dropWhile isWS) (frontOk_wsMask_dropWhile s)

theorem pyStrip_eq_self {s : PStr} (h : strippedOk s) : pyStrip s = s := by
  obtain ⟨h1, h2⟩ := h
  unfold pyStrip
  rw [dropWhile_eq_self_of_frontOk h1]
  have h3 : frontOk (wsMask s.reverse) = true := by rw [wsMask_reverse]; exact h2
  rw [dropWhile_eq_self_of_frontOk h3, List.reverse_reverse]

theorem pyStrip_idem (s : PStr) : pyStrip (pyStrip s) = pyStrip s :=
  pyStrip_eq_self (pyStrip_strippedOk s)

theorem wsMask_pyTitleGo (p : Bool) (s : PStr) : wsMask (pyTitleGo p s) = wsMask s := by
  induction s generalizing p with
  | nil => rfl
  | cons c t ih =>
    simp only [pyTitleGo, wsMask, List.map_cons]
    congr 1
    · by_cases h : isAlphaC c = true
      · by_cases hp : p = true <;> simp [h, hp, isWS_toLowerC, isWS_toUpperC]
      · simp only [Bool.not_eq_true] at h
        simp [h]
    · simpa [wsMask] using ih (isAlphaC c)

theorem wsMask_map_toLowerC (s : PStr) : wsMask (s.map toLowerC) = wsMask s := by
  induction s with
  | nil => rfl
  | cons c t ih => simp only [List.map_cons, wsMask] at *; rw [isWS_toLowerC]; simp [ih]

theorem wsMask_pyCapitalize (s : PStr) : wsMask (pyCapitalize s) = wsMask s := by
  cases s with
  | nil => rfl
  | cons c t =>
    simp only [pyCapitalize, wsMask, List.map_cons]
    congr 1
    · exact isWS_toUpperC c
    · simpa [wsMask] using wsMask_map_toLowerC t

/-! Facts about `splitOnC` and the apostrophe rewrite. -/

theorem splitOnC_ne_nil (sep : Nat) (s : PStr) : splitOnC sep s ≠ [] := by
  cases s with
  | nil => simp [splitOnC]
  | cons c t =>
    simp only [splitOnC]
    split
    · simp
    · split <;> simp

theorem splitOnC_one {sep : Nat} {s a : PStr} (h : splitOnC sep s = [a]) : s = a ∧ sep ∉ a := by
  induction s generalizing a with
  | nil =>
    simp [splitOnC] at h
    simp [h]
  | cons c t ih =>
    rcases hs : splitOnC sep t with _ | ⟨h1, r⟩
    · exact absurd hs (splitOnC_ne_nil sep t)
    · simp only [splitOnC, hs] at h
      by_cases hc : c = sep
      · simp [hc] at h
      · simp [hc] at h
        obtain ⟨ha, hr⟩ := h
        have hih := ih (a := h1) (by rw [hs, hr])
        refine ⟨by rw [← ha, hih.1], ?_⟩
        rw [← ha]
        intro hmem
        rcases List.mem_cons.mp hmem with h2 | h2
        · exact hc h2.symm
        · exact hih.2 h2

theorem splitOnC_two {sep : Nat} {s a b : PStr} (h : splitOnC sep s = [a, b]) :
    s = a ++ sep :: b ∧ sep ∉ a ∧ sep ∉ b := by
  induction s generalizing a with
  | nil => simp [splitOnC] at h
  | cons c t ih =>
    rcases hs : splitOnC sep t with _ | ⟨h1, r⟩
    · exact absurd hs (splitOnC_ne_nil sep t)
    · simp only [splitOnC, hs] at h
      by_cases hc : c = sep
      · simp [hc] at h
        obtain ⟨ha, hb, hr⟩ := h
        have hone : splitOnC sep t = [b] := by rw [hs, hb, hr]
        obtain ⟨ht, hnb⟩ := splitOnC_one hone
        subst hc
        refine ⟨by simp [ha, ht], by simp [ha], hnb⟩
      · simp [hc] at h
        obtain ⟨ha, hr⟩ := h
        have htwo : splitOnC sep t = [h1, b] := by rw [hs, hr]
        obtain ⟨ht, hn1, hnb⟩ := ih (a := h1) htwo
        refine ⟨by rw [← ha, ht]; rfl, ?_, hnb⟩
        rw [← ha]
        intro hmem
        rcases List.mem_cons.mp hmem with h2 | h2
        · exact hc h2.symm
        · exact hn1 h2

theorem splitOnC_no_sep {sep : Nat} {s : PStr} (h : sep ∉ s) : splitOnC sep s = [s] := by
  induction s with
  | nil => rfl
  | cons c t ih =>
    have hc : c ≠ sep := fun he => h (he ▸ List.mem_cons_self c t)
    have ht : sep ∉ t := fun hm => h (List.mem_cons_of_mem c hm)
    simp [splitOnC, ih ht, hc]

theorem splitOnC_O {l : PStr} (h : (39 : Nat) ∉ l) : splitOnC 39 (79 :: 39 :: l) = [[79], l] := by
  simp [splitOnC, splitOnC_no_sep h]

theorem applyOFix_cases (s : PStr) :
    (∃ p0 p1, (p0 = [79] ∨ p0 = [111]) ∧ s = p0 ++ 39 :: p1 ∧ (39 : Nat) ∉ p1 ∧
      applyOFix s = 79 :: 39 :: pyCapitalize p1) ∨ applyOFix s = s := by
  rcases hsp : splitOnC 39 s with _ | ⟨p0, _ | ⟨p1, _ | ⟨x, r⟩⟩⟩
  · right; simp [applyOFix, hsp]
  · right; simp [applyOFix, hsp]
  · by_cases hc : p0 = [79] ∨ p0 = [111]
    · left
      obtain ⟨hd, _, hn1⟩ := splitOnC_two hsp
      exact ⟨p0, p1, hc, hd, hn1, by simp [applyOFix, hsp, hc]⟩
    · right; simp [applyOFix, hsp, hc]
  · right; simp [applyOFix, hsp]

theorem pyCapitalize_idem (l : PStr) : pyCapitalize (pyCapitalize l) = pyCapitalize l := by
  cases l with
  | nil => rfl
  | cons c t =>
    simp only [pyCapitalize, toUpperC_idem, List.map_map]
    congr 1
    apply List.map_congr_left
    intro a _
    exact toLowerC_idem a

theorem not_mem_39_pyCapitalize {l : PStr} (h : (39 : Nat) ∉ l) : (39 : Nat) ∉ pyCapitalize l := by
  cases l with
  | nil => simp [pyCapitalize]
  | cons c t =>
    simp only [pyCapitalize, List.mem_cons]
    rintro (h1 | h2)
    · exact toUpperC_ne_39 (fun he => h (he ▸ List.mem_cons_self c t)) h1.symm
    · obtain ⟨y, hy, hyl⟩ := List.mem_map.mp h2
      exact toLowerC_ne_39 (fun he => h (he ▸ List.mem_cons_of_mem c hy)) hyl

theorem fixNameCapitalization_cases (s : PStr) :
    (∃ c t, s = 77 :: 99 :: c :: t ∧ fixNameCapitalization s = 77 :: 99 :: toUpperC c :: t) ∨
    (∃ c t, s = 77 :: 97 :: 99 :: c :: t ∧
      fixNameCapitalization s = 77 :: 97 :: 99 :: toUpperC c :: t) ∨
    (∃ p0 p1, (p0 = [79] ∨ p0 = [111]) ∧ s = p0 ++ 39 :: p1 ∧ (39 : Nat) ∉ p1 ∧
      fixNameCapitalization s = 79 :: 39 :: pyCapitalize p1) ∨
    fixNameCapitalization s = s := by
  have hOr : ∀ s2 : PStr, (if hasOApos s2 then applyOFix s2 else s2) = applyOFix s2 ∨
      (if hasOApos s2 then applyOFix s2 else s2) = s2 := by
    intro s2
    by_cases h : hasOApos s2 = true <;> simp [h]
  have main : ∀ s2 : PStr, fixNameCapitalization s2 = applyOFix s2 ∨
      (∃ c t, s2 = 77 :: 99 :: c :: t ∧ fixNameCapitalization s2 = 77 :: 99 :: toUpperC c :: t) ∨
      (∃ c t, s2 = 77 :: 97 :: 99 :: c :: t ∧
        fixNameCapitalization s2 = 77 :: 97 :: 99 :: toUpperC c :: t) ∨
      fixNameCapitalization s2 = s2 := by
    intro s2
    match s2 with
    | [] => right; right; right; rfl
    | [a] => right; right; right; simp [fixNameCapitalization, hasOApos]
    | [a, b] =>
      rcases hOr [a, b] with h | h
      · left; simpa [fixNameCapitalization] using h
      · right; right; right; simpa [fixNameCapitalization] using h
    | [a, b, c] =>
      by_cases hmc : a = 77 ∧ b = 99
      · right; left
        exact ⟨c, [], by simp [hmc.1, hmc.2], by simp [fixNameCapitalization, hmc]⟩
      · rcases hOr [a, b, c] with h | h
        · left; simpa [fixNameCapitalization, hmc] using h
        · right; right; right; simpa [fixNameCapitalization, hmc] using h
    | a :: b :: c :: d :: t =>
      by_cases hmc : a = 77 ∧ b = 99
      · right; left
        exact ⟨c, d :: t, by simp [hmc.1, hmc.2], by simp [fixNameCapitalization, hmc]⟩
      · by_cases hmac : a = 77 ∧ b = 97 ∧ c = 99
        · right; right; left
          exact ⟨d, t, by simp [hmac.1, hmac.2.1, hmac.2.2],
            by simp [fixNameCapitalization, hmc, hmac]⟩
        · rcases hOr (a :: b :: c :: d :: t) with h | h
          · left; simpa [fixNameCapitalization, hmc, hmac] using h
          · right; right; right; simpa [fixNameCapitalization, hmc, hmac] using h
  rcases main s with h | h | h | h
  · rcases applyOFix_cases s with ⟨p0, p1, hp0, hd, hn, hf⟩ | hf
    · right; right; left; exact ⟨p0, p1, hp0, hd, hn, by rw [h, hf]⟩
    · right; right; right; rw [h, hf]
  · left; exact h
  · right; left; exact h
  · right; right; right; exact h

theorem fix_O_shape {l : PStr} (h : (39 : Nat) ∉ l) :
    fixNameCapitalization (79 :: 39 :: l) = 79 :: 39 :: pyCapitalize l := by
  have happly : applyOFix (79 :: 39 :: l) = 79 :: 39 :: pyCapitalize l := by
    simp [applyOFix, splitOnC_O h]
  cases l with
  | nil => simp [fixNameCapitalization, hasOApos, happly]
  | cons x t =>
    cases t with
    | nil => simp [fixNameCapitalization, hasOApos, happly]
    | cons y t2 => simp [fixNameCapitalization, hasOApos, happly]

theorem fixNameCapitalization_idem (s : PStr) :
    fixNameCapitalization (fixNameCapitalization s) = fixNameCapitalization s := by
  rcases fixNameCapitalization_cases s with ⟨c, t, hs, hf⟩ | ⟨c, t, hs, hf⟩ |
    ⟨p0, p1, hp0, hs, hn, hf⟩ | hf
  · rw [hf]
    cases t with
    | nil => simp [fixNameCapitalization, toUpperC_idem]
    | cons d t2 => simp [fixNameCapitalization, toUpperC_idem]
  · rw [hf]
    simp [fixNameCapitalization, toUpperC_idem]
  · rw [hf, fix_O_shape (not_mem_39_pyCapitalize hn), pyCapitalize_idem]
  · rw [hf, hf]

/-! Facts about `pyTitleGo`. -/

/-- The per-character transformation of `pyTitleGo`. -/
def transformC (p : Bool) (c : Nat) : Nat :=
  if isAlphaC c then (if p then toLowerC c else toUpperC c) else c

theorem pyTitleGo_cons (p : Bool) (c : Nat) (t : PStr) :
    pyTitleGo p (c :: t) = transformC p c :: pyTitleGo (isAlphaC c) t := rfl

theorem isAlphaC_transformC (p : Bool) (c : Nat) : isAlphaC (transformC p c) = isAlphaC c := by
  unfold transformC
  by_cases h : isAlphaC c = true
  · by_cases hp : p = true <;> simp [h, hp, isAlphaC_toLowerC, isAlphaC_toUpperC]
  · simp only [Bool.not_eq_true] at h
    simp [h]

theorem transformC_transformC (p : Bool) (c : Nat) :
    transformC p (transformC p c) = transformC p c := by
  unfold transformC
  by_cases h : isAlphaC c = true
  · by_cases hp : p = true
    · simp [h, hp, isAlphaC_toLowerC, toLowerC_idem]
    · simp [h, hp, isAlphaC_toUpperC, toUpperC_idem]
  · simp only [Bool.not_eq_true] at h
    simp [h]

theorem transformC_toLowerC (p : Bool) (c : Nat) :
    transformC p (toLowerC c) = transformC p c := by
  unfold transformC
  by_cases h : isAlphaC c = true
  · by_cases hp : p = true <;>
      simp [h, hp, isAlphaC_toLowerC, toLowerC_idem, toUpperC_toLowerC]
  · simp only [Bool.not_eq_true] at h
    simp [h, isAlphaC_toLowerC, toLowerC_of_not_alpha h]

theorem transformC_false_toUpperC (c : Nat) : transformC false (toUpperC c) = toUpperC c := by
  unfold transformC
  by_cases h : isAlphaC (toUpperC c) = true
  · simp [h, toUpperC_idem]
  · simp only [Bool.not_eq_true] at h
    simp [h]

theorem pyTitleGo_idem (p : Bool) (s : PStr) : pyTitleGo p (pyTitleGo p s) = pyTitleGo p s := by
  induction s generalizing p with
  | nil => rfl
  | cons c t ih =>
    rw [pyTitleGo_cons, pyTitleGo_cons, transformC_transformC, isAlphaC_transformC, ih]

theorem pyTitleGo_of_no_alpha {s : PStr} (h : ∀ x ∈ s, isAlphaC x = false) (p : Bool) :
    pyTitleGo p s = s := by
  induction s generalizing p with
  | nil => rfl
  | cons c t ih =>
    have hc := h c (List.mem_cons_self c t)
    rw [pyTitleGo_cons, show transformC p c = c from by unfold transformC; simp [hc], hc]
    rw [ih (fun x hx => h x (List.mem_cons_of_mem c hx))]

/-! Whitespace mask of the fix-ups, and the stripped-ness of `cleanName`. -/

theorem wsMask_fixNameCapitalization (s : PStr) :
    wsMask (fixNameCapitalization s) = wsMask s := by
  rcases fixNameCapitalization_cases s with ⟨c, t, hs, hf⟩ | ⟨c, t, hs, hf⟩ |
    ⟨p0, p1, hp0, hs, hn, hf⟩ | hf
  · rw [hf, hs]; simp [wsMask, isWS_toUpperC]
  · rw [hf, hs]; simp [wsMask, isWS_toUpperC]
  · rw [hf, hs]
    have hc := wsMask_pyCapitalize p1
    rcases hp0 with h0 | h0 <;> subst h0 <;> simpa [wsMask, isWS] using hc
  · rw [hf]

theorem wsMask_cleanName (s : PStr) : wsMask (cleanName s) = wsMask (pyStrip s) := by
  have hdef : cleanName s =
      fixNameCapitalization (if pyIsUpper (pyStrip s) then pyTitle (pyStrip s) else pyStrip s) :=
    rfl
  rw [hdef, wsMask_fixNameCapitalization]
  by_cases h : pyIsUpper (pyStrip s) = true
  · simp only [h, if_true, pyTitle]
    exact wsMask_pyTitleGo false (pyStrip s)
  · simp only [Bool.not_eq_true] at h
    simp [h]

theorem strippedOk_via_mask {s t : PStr} (h : wsMask s = wsMask t) (ht : strippedOk t) :
    strippedOk s := by
  unfold strippedOk at *
  rw [h]
  exact ht

theorem pyStrip_cleanName (s : PStr) : pyStrip (cleanName s) = cleanName s :=
  pyStrip_eq_self (strippedOk_via_mask (wsMask_cleanName s) (pyStrip_strippedOk s))

theorem pyIsUpper_eq_false_of_mem {s : PStr} {x : Nat} (hx : x ∈ s) (hl : isLowerC x = true) :
    pyIsUpper s = false := by
  cases hA : s.all (fun c => !isLowerC c) with
  | true =>
    have := List.all_eq_true.mp hA x hx
    simp [hl] at this
  | false => simp [pyIsUpper, hA]

theorem pyIsUpper_all {s : PStr} (h : pyIsUpper s = true) :
    ∀ x ∈ s, isLowerC x = false := by
  intro x hx
  have hA := (Bool.and_eq_true _ _ |>.mp h).2
  have := List.all_eq_true.mp hA x hx
  simpa using this

/-- Idempotence of `cleanName`, on all inputs. -/
theorem cleanName_idempotent (s : PStr) : cleanName (cleanName s) = cleanName s := by
  have hdef : ∀ x : PStr, cleanName x =
      fixNameCapitalization (if pyIsUpper (pyStrip x) then pyTitle (pyStrip x) else pyStrip x) :=
    fun _ => rfl
  set u := if pyIsUpper (pyStrip s) then pyTitle (pyStrip s) else pyStrip s with hu
  have hr : cleanName s = fixNameCapitalization u := hdef s
  rw [hdef (cleanName s), pyStrip_cleanName]
  by_cases hU : pyIsUpper (cleanName s) = true
  · rw [if_pos hU]
    rcases fixNameCapitalization_cases u with ⟨c, t, hs2, hf⟩ | ⟨c, t, hs2, hf⟩ |
      ⟨p0, p1, hp0, hs2, hn, hf⟩ | hf
    · exfalso
      have hmem : (99 : Nat) ∈ cleanName s := by
        rw [hr, hf]; simp
      rw [pyIsUpper_eq_false_of_mem hmem (by decide)] at hU
      exact Bool.false_ne_true hU
    · exfalso
      have hmem : (97 : Nat) ∈ cleanName s := by
        rw [hr, hf]; simp
      rw [pyIsUpper_eq_false_of_mem hmem (by decide)] at hU
      exact Bool.false_ne_true hU
    · -- the apostrophe rewrite fired: the result is its own title-casing
      have hclean : cleanName s = 79 :: 39 :: pyCapitalize p1 := by rw [hr, hf]
      have htitle : pyTitle (cleanName s) = cleanName s := by
        rw [hclean]
        have hAll := pyIsUpper_all (hclean ▸ hU)
        cases p1 with
        | nil => decide
        | cons h1 t1 =>
          have ht1 : ∀ x ∈ t1, isAlphaC x = false := by
            intro x hx
            have hmem : toLowerC x ∈ 79 :: 39 :: pyCapitalize (h1 :: t1) := by
              simp [pyCapitalize, List.mem_map]
              exact Or.inr (Or.inr (Or.inr ⟨x, hx, rfl⟩))
            have := hAll (toLowerC x) hmem
            rw [isLowerC_toLowerC] at this
            exact this
          have hmap : List.map toLowerC t1 = t1 := by
            have h1m : List.map toLowerC t1 = List.map id t1 :=
              List.map_congr_left (fun x hx => toLowerC_of_not_alpha (ht1 x hx))
            rw [h1m, List.map_id]
          show pyTitleGo false (79 :: 39 :: pyCapitalize (h1 :: t1)) = _
          simp only [pyCapitalize, hmap]
          rw [pyTitleGo_cons, pyTitleGo_cons, pyTitleGo_cons]
          rw [show transformC false 79 = 79 from by decide,
            show isAlphaC (79 : Nat) = true from by decide,
            show transformC true 39 = 39 from by decide,
            show isAlphaC (39 : Nat) = false from by decide,
            transformC_false_toUpperC,
            pyTitleGo_of_no_alpha ht1]
      rw [htitle, hr, fixNameCapitalization_idem]
    · -- no fix-up fired
      have hclean : cleanName s = u := by rw [hr, hf]
      by_cases hIs : pyIsUpper (pyStrip s) = true
      · have huT : u = pyTitle (pyStrip s) := by rw [hu, if_pos hIs]
        have htitle : pyTitle (cleanName s) = cleanName s := by
          rw [hclean, huT]
          exact pyTitleGo_idem false (pyStrip s)
        rw [htitle, hr, fixNameCapitalization_idem]
      · exfalso
        have huT : u = pyStrip s := by rw [hu, if_neg hIs]
        rw [hclean, huT] at hU
        exact hIs hU
  · rw [if_neg hU, hr, fixNameCapitalization_idem]

/-! Length facts used for the non-empty-name invariant. -/

theorem length_pyTitleGo (p : Bool) (s : PStr) : (pyTitleGo p s).length = s.length := by
  induction s generalizing p with
  | nil => rfl
  | cons c t ih => rw [pyTitleGo_cons]; simp [ih]

theorem length_pyCapitalize (l : PStr) : (pyCapitalize l).length = l.length := by
  cases l <;> simp [pyCapitalize]

theorem length_fixNameCapitalization (s : PStr) :
    (fixNameCapitalization s).length = s.length := by
  rcases fixNameCapitalization_cases s with ⟨c, t, hs, hf⟩ | ⟨c, t, hs, hf⟩ |
    ⟨p0, p1, hp0, hs, hn, hf⟩ | hf
  · rw [hf, hs]; simp
  · rw [hf, hs]; simp
  · rw [hf, hs]
    rcases hp0 with h0 | h0 <;> subst h0 <;> simp [length_pyCapitalize]
  · rw [hf]

theorem length_cleanName (s : PStr) : (cleanName s).length = (pyStrip s).length := by
  have hdef : cleanName s =
      fixNameCapitalization (if pyIsUpper (pyStrip s) then pyTitle (pyStrip s) else pyStrip s) :=
    rfl
  rw [hdef, length_fixNameCapitalization]
  by_cases h : pyIsUpper (pyStrip s) = true
  · simp [h, pyTitle, length_pyTitleGo]
  · simp only [Bool.not_eq_true] at h
    simp [h]

theorem cleanName_ne_nil {s : PStr} (h : pyStrip s ≠ []) : cleanName s ≠ [] := by
  intro hc
  apply h
  have := length_cleanName s
  rw [hc] at this
  exact List.length_eq_zero.mp this.symm

/-! Model of `ClassSplittingStage._group_by_class`: group rows by class,
skipping rows with a falsy class or student cell, keeping the first non-empty
teacher per group, and collecting students with set semantics; the students of
each group are sorted at the end. -/

/-- One data row as read by the grouper: the class, student and teacher cells.
A missing (`None`) cell is the empty string. -/
structure GRow where
  cls : PStr
  student : PStr
  teacher : PStr

/-- Set-semantics insertion into the students list. -/
def addStudent (ss : List PStr) (st : PStr) : List PStr := if st ∈ ss then ss else ss ++ [st]

/-- Update the association list for one kept row, mirroring the dict update of
`_group_by_class`: create the entry on first sight, backfill an empty stored
teacher, add the student. -/
def gAdd : List (PStr × PStr × List PStr) → PStr → PStr → PStr → List (PStr × PStr × List PStr)
  | [], cls, st, te => [(cls, te, [st])]
  | (k, t0, ss) :: rest, cls, st, te =>
    if k = cls then (k, (if te ≠ [] ∧ t0 = [] then te else t0), addStudent ss st) :: rest
    else (k, t0, ss) :: gAdd rest cls st te

/-- One step of the grouping loop: skip rows with a falsy class or student
cell, else strip the three cells and update the groups. -/
def gStep (m : List (PStr × PStr × List PStr)) (r : GRow) : List (PStr × PStr × List PStr) :=
  if r.cls = [] ∨ r.student = [] then m
  else gAdd m (pyStrip r.cls) (pyStrip r.student) (pyStrip r.teacher)

/-- Lexicographic order on strings, as Python string comparison. -/
def lexLe : PStr → PStr → Bool
  | [], _ => true
  | _ :: _, [] => false
  | a :: s, b :: t => if a < b then true else if b < a then false else lexLe s t

/-- Insert into a list sorted by a key. -/
def insSortedBy {α : Type} (key : α → PStr) (x : α) : List α → List α
  | [] => [x]
  | y :: t => if lexLe (key x) (key y) then x :: y :: t else y :: insSortedBy key x t

/-- Insertion sort by a key, modelling Python `sorted`. -/
def sortByKey {α : Type} (key : α → PStr) (l : List α) : List α := l.foldr (insSortedBy key) []

/-- Python `sorted` on a list of strings. -/
def sortP (l : List PStr) : List PStr := sortByKey (fun s => s) l

/-- Model of `_group_by_class`: fold the rows, then sort each students set. -/
def groupByClass (rows : List GRow) : List (PStr × PStr × List PStr) :=
  (rows.foldl gStep []).map (fun e => (e.1, e.2.1, sortP e.2.2))

/-- Association lookup among the groups. -/
def lookupG (cls : PStr) : List (PStr × PStr × List PStr) → Option (PStr × List PStr)
  | [] => none
  | (k, t0, ss) :: rest => if k = cls then some (t0, ss) else lookupG cls rest

/-- The rows the grouper keeps for a given group key. -/
def groupRowsFor (rows : List GRow) (cls : PStr) : List GRow :=
  rows.filter (fun r => (!r.cls.isEmpty && !r.student.isEmpty) && decide (pyStrip r.cls = cls))

/-- The first non-empty stripped teacher cell of a row list, else empty. -/
def firstTeacherIn (l : List GRow) : PStr :=
  match l.find? (fun r => !(pyStrip r.teacher).isEmpty) with
  | some r => pyStrip r.teacher
  | none => []

theorem lookupG_gAdd_same (m : List (PStr × PStr × List PStr)) (cls st te : PStr) :
    lookupG cls (gAdd m cls st te) =
      some (match lookupG cls m with
            | some (t0, ss) => (if te ≠ [] ∧ t0 = [] then te else t0, addStudent ss st)
            | none => (te, [st])) := by
  induction m with
  | nil => simp [gAdd, lookupG]
  | cons e rest ih =>
    obtain ⟨k, t0, ss⟩ := e
    by_cases hk : k = cls
    · subst hk
      simp [gAdd, lookupG]
    · simp [gAdd, lookupG, hk, ih]

theorem lookupG_gAdd_other {k cls : PStr} (h : k ≠ cls)
    (m : List (PStr × PStr × List PStr)) (st te : PStr) :
    lookupG k (gAdd m cls st te) = lookupG k m := by
  induction m with
  | nil =>
    simp only [gAdd, lookupG]
    rw [if_neg (fun he => h he.symm)]
  | cons e rest ih =>
    obtain ⟨k2, t0, ss⟩ := e
    by_cases hk2 : k2 = cls
    · subst hk2
      have : ¬ k2 = k := fun he => h he.symm
      simp [gAdd, lookupG, this]
    · by_cases hkk : k2 = k
      · subst hkk
        simp [gAdd, lookupG, hk2]
      · simp [gAdd, lookupG, hk2, hkk, ih]

theorem firstTeacherIn_cons (r : GRow) (l : List GRow) :
    firstTeacherIn (r :: l) =
      if pyStrip r.teacher = [] then firstTeacherIn l else pyStrip r.teacher := by
  unfold firstTeacherIn
  by_cases h : pyStrip r.teacher = []
  · rw [List.find?_cons_of_neg _ (by simp [h]), if_pos h]
  · rw [List.find?_cons_of_pos _ (by simp [h]), if_neg h]

theorem gfold_teacher (rows : List GRow) :
    ∀ (m : List (PStr × PStr × List PStr)) (cls t : PStr) (ss : List PStr),
    lookupG cls (rows.foldl gStep m) = some (t, ss) →
    t = (match lookupG cls m with
         | some (t0, _) => if t0 = [] then firstTeacherIn (groupRowsFor rows cls) else t0
         | none => firstTeacherIn (groupRowsFor rows cls)) := by
  induction rows with
  | nil =>
    intro m cls t ss h
    simp only [List.foldl_nil] at h
    rcases hm : lookupG cls m with _ | ⟨t0, ss0⟩
    · rw [hm] at h; exact absurd h (by simp)
    · rw [hm] at h
      simp only [Option.some.injEq, Prod.mk.injEq] at h
      obtain ⟨ht, hss⟩ := h
      by_cases h0 : t0 = []
      · simp [← ht, h0, groupRowsFor, firstTeacherIn]
      · simp [← ht, h0]
  | cons r rows ih =>
    intro m cls t ss h
    simp only [List.foldl_cons] at h
    have hstep := ih (gStep m r) cls t ss h
    by_cases hskip : r.cls = [] ∨ r.student = []
    · have hm : gStep m r = m := by simp [gStep, hskip]
      rw [hm] at hstep
      have hrows : groupRowsFor (r :: rows) cls = groupRowsFor rows cls := by
        rcases hskip with h1 | h1 <;>
          simp [groupRowsFor, List.filter_cons, h1]
      rw [hrows]
      exact hstep
    · push_neg at hskip
      obtain ⟨hc, hs⟩ := hskip
      have hm : gStep m r = gAdd m (pyStrip r.cls) (pyStrip r.student) (pyStrip r.teacher) := by
        simp [gStep, hc, hs]
      by_cases hcls : pyStrip r.cls = cls
      · have hrows : groupRowsFor (r :: rows) cls = r :: groupRowsFor rows cls := by
          simp [groupRowsFor, List.filter_cons, hc, hs, hcls]
        rw [hrows, firstTeacherIn_cons]
        rw [hm, hcls] at hstep
        rw [lookupG_gAdd_same] at hstep
        rcases hm0 : lookupG cls m with _ | ⟨t0, ss0⟩
        · rw [hm0] at hstep
          by_cases hte : pyStrip r.teacher = []
          · simp only [hte] at hstep ⊢
            simpa using hstep
          · simp only [hte] at hstep ⊢
            simpa [hte] using hstep
        · rw [hm0] at hstep
          by_cases hte : pyStrip r.teacher = []
          · have hstep2 : t = if t0 = [] then firstTeacherIn (groupRowsFor rows cls) else t0 := by
              simpa [hte] using hstep
            simpa [hte] using hstep2
          · by_cases h0 : t0 = []
            · have hstep2 : t = pyStrip r.teacher := by simpa [hte, h0] using hstep
              simpa [hte, h0] using hstep2
            · have hstep2 : t = t0 := by simpa [hte, h0] using hstep
              simpa [hte, h0] using hstep2
      · have hrows : groupRowsFor (r :: rows) cls = groupRowsFor rows cls := by
          simp [groupRowsFor, List.filter_cons, hcls]
        rw [hrows]
        rw [hm, lookupG_gAdd_other (fun he => hcls he.symm)] at hstep
        exact hstep

/-! Order facts for the sort. -/

theorem lexLe_cons {x y : Nat} {s t : PStr} :
    lexLe (x :: s) (y :: t) = true ↔ x < y ∨ (x = y ∧ lexLe s t = true) := by
  by_cases h1 : x < y
  · simp [lexLe, h1]
  · by_cases h2 : y < x
    · simp [lexLe, h1, h2]; omega
    · have : x = y := by omega
      simp [lexLe, h1, h2, this]

theorem lexLe_total (a b : PStr) : lexLe a b = true ∨ lexLe b a = true := by
  induction a generalizing b with
  | nil => left; rfl
  | cons x s ih =>
    cases b with
    | nil => right; rfl
    | cons y t =>
      rcases Nat.lt_trichotomy x y with h | h | h
      · left; rw [lexLe_cons]; left; exact h
      · rcases ih t with h2 | h2
        · left; rw [lexLe_cons]; right; exact ⟨h, h2⟩
        · right; rw [lexLe_cons]; right; exact ⟨h.symm, h2⟩
      · right; rw [lexLe_cons]; left; exact h

theorem lexLe_trans {a b c : PStr} (h1 : lexLe a b = true) (h2 : lexLe b c = true) :
    lexLe a c = true := by
  induction a generalizing b c with
  | nil => rfl
  | cons x s ih =>
    cases b with
    | nil => exact absurd h1 (by simp [lexLe])
    | cons y tb =>
      cases c with
      | nil => exact absurd h2 (by simp [lexLe])
      | cons z tc =>
        rw [lexLe_cons] at h1 h2 ⊢
        rcases h1 with h1 | ⟨h1e, h1r⟩
        · rcases h2 with h2 | ⟨h2e, h2r⟩
          · left; omega
          · left; omega
        · rcases h2 with h2 | ⟨h2e, h2r⟩
          · left; omega
          · right; exact ⟨by omega, ih h1r h2r⟩

theorem mem_insSortedBy {α : Type} (key : α → PStr) (x a : α) (l : List α) :
    a ∈ insSortedBy key x l ↔ a = x ∨ a ∈ l := by
  induction l with
  | nil => simp [insSortedBy]
  | cons y t ih =>
    by_cases h : lexLe (key x) (key y) = true
    · simp [insSortedBy, h]
    · simp [insSortedBy, h, ih]
      tauto

theorem perm_insSortedBy {α : Type} (key : α → PStr) (x : α) (l : List α) :
    List.Perm (insSortedBy key x l) (x :: l) := by
  induction l with
  | nil => simp [insSortedBy]
  | cons y t ih =>
    by_cases h : lexLe (key x) (key y) = true
    · simp [insSortedBy, h]
    · simp only [insSortedBy, h, if_false]
      exact (ih.cons y).trans (List.Perm.swap x y t)

theorem perm_sortByKey {α : Type} (key : α → PStr) (l : List α) :
    List.Perm (sortByKey key l) l := by
  induction l with
  | nil => rfl
  | cons x t ih =>
    have : sortByKey key (x :: t) = insSortedBy key x (sortByKey key t) := rfl
    rw [this]
    exact (perm_insSortedBy key x (sortByKey key t)).trans (ih.cons x)

theorem pairwise_insSortedBy {α : Type} (key : α → PStr) (x : α) {l : List α}
    (h : l.Pairwise (fun a b => lexLe (key a) (key b) = true)) :
    (insSortedBy key x l).Pairwise (fun a b => lexLe (key a) (key b) = true) := by
  induction l with
  | nil => simp [insSortedBy]
  | cons y t ih =>
    by_cases hxy : lexLe (key x) (key y) = true
    · rw [show insSortedBy key x (y :: t) = x :: y :: t from by simp [insSortedBy, hxy]]
      refine List.Pairwise.cons ?_ h
      intro z hz
      rcases List.mem_cons.mp hz with hz | hz
      · rw [hz]; exact hxy
      · exact lexLe_trans hxy ((List.pairwise_cons.mp h).1 z hz)
    · rw [show insSortedBy key x (y :: t) = y :: insSortedBy key x t from by
        simp [insSortedBy, hxy]]
      have hyx : lexLe (key y) (key x) = true := by
        rcases lexLe_total (key x) (key y) with h2 | h2
        · exact absurd h2 hxy
        · exact h2
      refine List.Pairwise.cons ?_ (ih (List.pairwise_cons.mp h).2)
      intro z hz
      rcases (mem_insSortedBy key x z _).mp hz with hz | hz
      · rw [hz]; exact hyx
      · exact (List.pairwise_cons.mp h).1 z hz

theorem pairwise_sortByKey {α : Type} (key : α → PStr) (l : List α) :
    (sortByKey key l).Pairwise (fun a b => lexLe (key a) (key b) = true) := by
  induction l with
  | nil => simp [sortByKey]
  | cons x t ih => exact pairwise_insSortedBy key x ih

theorem length_sortP (l : List PStr) : (sortP l).length = l.length :=
  (perm_sortByKey (fun s => s) l).length_eq

theorem mem_sortP {a : PStr} {l : List PStr} : a ∈ sortP l ↔ a ∈ l :=
  (perm_sortByKey (fun s => s) l).mem_iff

theorem lookupG_map_sort (cls : PStr) (m : List (PStr × PStr × List PStr)) :
    lookupG cls (m.map (fun e => (e.1, e.2.1, sortP e.2.2))) =
      (lookupG cls m).map (fun p => (p.1, sortP p.2)) := by
  induction m with
  | nil => rfl
  | cons e rest ih =>
    obtain ⟨k, t0, ss⟩ := e
    by_cases hk : k = cls
    · simp [lookupG, hk]
    · simp [lookupG, hk, ih]

/-- C4: the supervisor stored for a group equals the first non-empty stripped
teacher cell among the rows the grouper keeps for that group, in input order
(the entry is created with the teacher of the first row; an empty stored teacher is
backfilled by the next non-empty one; a non-empty stored teacher is never
overwritten). -/
theorem claim_C4_supervisor_first_nonempty (rows : List GRow) (cls t : PStr) (ss : List PStr)
    (h : lookupG cls (groupByClass rows) = some (t, ss)) :
    t = firstTeacherIn (groupRowsFor rows cls) := by
  unfold groupByClass at h
  rw [lookupG_map_sort] at h
  rcases hm : lookupG cls (rows.foldl gStep []) with _ | ⟨t0, ss0⟩
  · rw [hm] at h; exact absurd h (by simp)
  · rw [hm] at h
    simp only [Option.map_some', Option.some.injEq, Prod.mk.injEq] at h
    obtain ⟨ht, hss⟩ := h
    rw [← ht]
    exact gfold_teacher rows [] cls t0 ss0 hm

/-- Input rows for the C4 witness: an all-whitespace teacher cell first, then
two conflicting teacher values. -/
def c4rows : List GRow :=
  [⟨pstr ("6.1"), pstr ("A"), [32]⟩, ⟨pstr ("6.1"), pstr ("B"), pstr ("T1")⟩,
   ⟨pstr ("6.1"), pstr ("C"), pstr ("T2")⟩]

/-- Witness for C4 at a concrete input: the whitespace teacher does not count,
the first non-empty teacher T1 is stored, the later T2 never overwrites it. -/
theorem claim_C4_witness :
    lookupG (pstr ("6.1")) (groupByClass c4rows) =
        some (pstr ("T1"), [pstr ("A"), pstr ("B"), pstr ("C")]) ∧
      pstr ("T1") = firstTeacherIn (groupRowsFor c4rows (pstr ("6.1"))) :=
  ⟨by decide, claim_C4_supervisor_first_nonempty c4rows (pstr ("6.1")) (pstr ("T1"))
    [pstr ("A"), pstr ("B"), pstr ("C")] (by decide)⟩

theorem mem_addStudent {ss : List PStr} {st p : PStr} :
    p ∈ addStudent ss st ↔ p = st ∨ p ∈ ss := by
  unfold addStudent
  by_cases h : st ∈ ss
  · simp only [h, if_true]
    constructor
    · exact Or.inr
    · rintro (rfl | hp)
      · exact h
      · exact hp
  · simp [h]
    exact Or.comm

/-- C5: with two kept rows of the same class, the people set has exactly one
entry when the two stripped names coincide, and two entries otherwise —
membership is exact string equality after stripping, with no case or
whitespace normalization. -/
theorem claim_C5_dedup_exact_after_trim (c n1 n2 t1 t2 : PStr)
    (hc : c ≠ []) (h1 : n1 ≠ []) (h2 : n2 ≠ []) :
    ∃ t ss, lookupG (pyStrip c) (groupByClass [⟨c, n1, t1⟩, ⟨c, n2, t2⟩]) = some (t, ss) ∧
      ss.length = (if pyStrip n1 = pyStrip n2 then 1 else 2) := by
  have e1 : groupByClass [⟨c, n1, t1⟩, ⟨c, n2, t2⟩] =
      [(pyStrip c, (if pyStrip t2 ≠ [] ∧ pyStrip t1 = [] then pyStrip t2 else pyStrip t1),
        sortP (addStudent [pyStrip n1] (pyStrip n2)))] := by
    unfold groupByClass
    simp [gStep, hc, h1, h2, gAdd]
  rw [e1]
  refine ⟨(if pyStrip t2 ≠ [] ∧ pyStrip t1 = [] then pyStrip t2 else pyStrip t1),
    sortP (addStudent [pyStrip n1] (pyStrip n2)), by simp [lookupG], ?_⟩
  by_cases heq : pyStrip n1 = pyStrip n2
  · simp [addStudent, heq, length_sortP]
  · have : ¬ pyStrip n2 ∈ [pyStrip n1] := by
      simp only [List.mem_singleton]
      exact fun he => heq he.symm
    simp [addStudent, this, heq, length_sortP]
    rw [if_neg (fun he => heq he.symm)]
    rfl

/-- Witness for C5: the same name twice is one entry; the names Ann Lee and
ANN LEE, differing only in case, are two entries. -/
theorem claim_C5_witness :
    (∃ t ss, lookupG (pstr ("6.1"))
        (groupByClass [⟨pstr ("6.1"), pstr ("Ann Lee"), []⟩, ⟨pstr ("6.1"), pstr ("Ann Lee"), []⟩]) =
          some (t, ss) ∧ ss.length = 1) ∧
    (∃ t ss, lookupG (pstr ("6.1"))
        (groupByClass [⟨pstr ("6.1"), pstr ("Ann Lee"), []⟩, ⟨pstr ("6.1"), pstr ("ANN LEE"), []⟩]) =
          some (t, ss) ∧ ss.length = 2) := by
  constructor
  · obtain ⟨t, ss, hl, hn⟩ := claim_C5_dedup_exact_after_trim (pstr ("6.1")) (pstr ("Ann Lee"))
      (pstr ("Ann Lee")) [] [] (by decide) (by decide) (by decide)
    exact ⟨t, ss, hl, by rw [hn]; decide⟩
  · obtain ⟨t, ss, hl, hn⟩ := claim_C5_dedup_exact_after_trim (pstr ("6.1")) (pstr ("Ann Lee"))
      (pstr ("ANN LEE")) [] [] (by decide) (by decide) (by decide)
    exact ⟨t, ss, hl, by rw [hn]; decide⟩

theorem gfold_students_mem (rows : List GRow) :
    ∀ (m : List (PStr × PStr × List PStr)) (cls t : PStr) (ss : List PStr) (p : PStr),
    lookupG cls (rows.foldl gStep m) = some (t, ss) → p ∈ ss →
    (∃ r ∈ rows, p = pyStrip r.student) ∨
      (∃ t0 ss0, lookupG cls m = some (t0, ss0) ∧ p ∈ ss0) := by
  induction rows with
  | nil =>
    intro m cls t ss p h hp
    exact Or.inr ⟨t, ss, h, hp⟩
  | cons r rows ih =>
    intro m cls t ss p h hp
    simp only [List.foldl_cons] at h
    rcases ih (gStep m r) cls t ss p h hp with hcase | ⟨t0, ss0, hl, hp0⟩
    · left
      obtain ⟨r2, hr2, he⟩ := hcase
      exact ⟨r2, List.mem_cons_of_mem r hr2, he⟩
    · by_cases hskip : r.cls = [] ∨ r.student = []
      · right
        rw [show gStep m r = m from by simp [gStep, hskip]] at hl
        exact ⟨t0, ss0, hl, hp0⟩
      · push_neg at hskip
        obtain ⟨hc, hs⟩ := hskip
        rw [show gStep m r = gAdd m (pyStrip r.cls) (pyStrip r.student) (pyStrip r.teacher) from by
          simp [gStep, hc, hs]] at hl
        by_cases hcls : pyStrip r.cls = cls
        · rw [hcls, lookupG_gAdd_same] at hl
          rcases hm0 : lookupG cls m with _ | ⟨t1, ss1⟩
          · rw [hm0] at hl
            simp only [Option.some.injEq, Prod.mk.injEq] at hl
            obtain ⟨_, hss⟩ := hl
            rw [← hss] at hp0
            left
            exact ⟨r, List.mem_cons_self r rows, by simpa using hp0⟩
          · rw [hm0] at hl
            simp only [Option.some.injEq, Prod.mk.injEq] at hl
            obtain ⟨_, hss⟩ := hl
            rw [← hss] at hp0
            rcases mem_addStudent.mp hp0 with hp1 | hp1
            · left; exact ⟨r, List.mem_cons_self r rows, hp1⟩
            · right; exact ⟨t1, ss1, rfl, hp1⟩
        · rw [lookupG_gAdd_other (fun he => hcls he.symm)] at hl
          right; exact ⟨t0, ss0, hl, hp0⟩

theorem groupByClass_students_nonempty (rows : List GRow)
    (hrows : ∀ r ∈ rows, pyStrip r.student ≠ []) :
    ∀ (cls t : PStr) (ss : List PStr) (p : PStr),
    lookupG cls (groupByClass rows) = some (t, ss) → p ∈ ss → p ≠ [] := by
  intro cls t ss p h hp
  unfold groupByClass at h
  rw [lookupG_map_sort] at h
  rcases hm : lookupG cls (rows.foldl gStep []) with _ | ⟨t0, ss0⟩
  · rw [hm] at h; exact absurd h (by simp)
  · rw [hm] at h
    simp only [Option.map_some', Option.some.injEq, Prod.mk.injEq] at h
    obtain ⟨ht, hss⟩ := h
    rw [← hss] at hp
    have hp0 : p ∈ ss0 := mem_sortP.mp hp
    rcases gfold_students_mem rows [] cls t0 ss0 p hm hp0 with ⟨r, hr, he⟩ | ⟨t1, ss1, hl1, _⟩
    · rw [he]; exact hrows r hr
    · exact absurd hl1 (by simp [lookupG])

/-! Model of the schedule map: building it from schedule sheets and the
lookup with the grade-number fallback. -/

/-- Prefix test on code-point lists, modelling Python `startswith`. -/
def listStarts : PStr → PStr → Bool
  | [], _ => true
  | _ :: _, [] => false
  | a :: p, b :: t => a == b && listStarts p t

/-- Membership of a code point in a list, as a Bool. -/
def memC (n : Nat) (s : PStr) : Bool := s.contains n

/-- Association-list lookup, modelling a Python dict read. -/
def lookupA : List (PStr × PStr) → PStr → Option PStr
  | [], _ => none
  | (k, v) :: t, q => if k = q then some v else lookupA t q

/-- Association-list insertion with dict semantics: an existing key keeps its
position and gets the new value, a new key is appended. -/
def insertA : List (PStr × PStr) → PStr → PStr → List (PStr × PStr)
  | [], k, v => [(k, v)]
  | (k0, v0) :: t, k, v =>
    if k0 = k then (k0, v) :: t else (k0, v0) :: insertA t k v

/-- The first maximal run of digits of a string, modelling
`re.search(r"(\x5cd+)", s)`; empty when the string has no digit. -/
def firstDigitRun (s : PStr) : PStr := (s.dropWhile (fun c => !isDigitC c)).takeWhile isDigitC

/-- Keep the first occurrence of each value, in order. -/
def dedupKeep (l : List PStr) : List PStr :=
  l.foldl (fun acc t => if t ∈ acc then acc else acc ++ [t]) []

/-- Join a list of strings with a separator, empty for the empty list. -/
def joinSep (sep : PStr) : List PStr → PStr
  | [] => []
  | [x] => x
  | x :: y :: t => x ++ sep ++ joinSep sep (y :: t)

/-- The grade-fallback body shared by the lookup: collect the distinct values
of the entries whose key starts with the digit run followed by a dot or equals
the digit run, joined with slashes; 46 is the dot. -/
def gradeFallback (n : PStr) (m : List (PStr × PStr)) : PStr :=
  joinSep (pstr (" / "))
    (dedupKeep ((m.filter (fun e => listStarts (n ++ [46]) e.1 || e.1 == n)).map (fun e => e.2)))

/-- Model of `JSONUniversalCleaningStage._lookup_teacher`: empty for a falsy
query or empty map; else strip the query, try an exact dict hit, else extract
the first digit run and fall back to the per-grade join. -/
def lookupTeacher (g : PStr) (m : List (PStr × PStr)) : PStr :=
  if g = [] ∨ m = [] then []
  else
    let gs := pyStrip g
    match lookupA m gs with
    | some t => t
    | none =>
      let n := firstDigitRun gs
      if n = [] then [] else gradeFallback n m

/-- Modelled from the claim wording for comparison (refinement): if the query
is a key of the map return its value; else if it has no digit return empty;
else return the grade fallback on the first digit run. -/
def claimedLookup (g : PStr) (m : List (PStr × PStr)) : PStr :=
  match lookupA m g with
  | some t => t
  | none =>
    let n := firstDigitRun g
    if n = [] then [] else gradeFallback n m


theorem lookupA_empty_query_none {m : List (PStr × PStr)}
    (hk : ∀ e ∈ m, e.1 ≠ ([] : PStr)) : lookupA m [] = none := by
  induction m with
  | nil => rfl
  | cons e t ih =>
    obtain ⟨k, v⟩ := e
    have hkne : k ≠ [] := hk (k, v) (List.mem_cons_self _ _)
    simp [lookupA, hkne, ih (fun e he => hk e (List.mem_cons_of_mem _ he))]

/-- C2 counterexample: with the map mapping 6.1 to Y and 6 to X, the query
with a trailing blank after the 6 is not a key, so the claim prescribes the
grade fallback Y / X; the code strips the query first, hits the key 6 exactly
and returns X. -/
theorem claim_C2_counterexample :
    lookupTeacher (pstr ("6 ")) [(pstr ("6.1"), pstr ("Y")), (pstr ("6"), pstr ("X"))] = pstr ("X") ∧
    claimedLookup (pstr ("6 ")) [(pstr ("6.1"), pstr ("Y")), (pstr ("6"), pstr ("X"))] = pstr ("Y / X") ∧
    pstr ("X") ≠ pstr ("Y / X") :=
  ⟨by decide, by decide, by decide⟩

/-- C2 amended: for maps with non-empty keys (as every built map has), the
lookup behaves exactly as the claim describes applied to the STRIPPED query:
exact hit returns the stored value, no digit returns empty, else the distinct
supervisors of the keys starting with the digit run and a dot or equal to the
digit run, joined in map order, empty when none match. -/
theorem claim_C2_lookup_amended (g : PStr) (m : List (PStr × PStr))
    (hk : ∀ e ∈ m, e.1 ≠ ([] : PStr)) :
    lookupTeacher g m = claimedLookup (pyStrip g) m := by
  by_cases hg : g = []
  · subst hg
    have h1 : lookupTeacher [] m = [] := by simp [lookupTeacher]
    rw [h1]
    have hnone : lookupA m [] = none := lookupA_empty_query_none hk
    have hstrip : pyStrip ([] : PStr) = [] := rfl
    rw [hstrip]
    simp [claimedLookup, hnone, firstDigitRun]
  · by_cases hm : m = []
    · subst hm
      have h1 : lookupTeacher g [] = [] := by simp [lookupTeacher]
      rw [h1]
      by_cases hn : firstDigitRun (pyStrip g) = [] <;>
        simp [claimedLookup, lookupA, hn, gradeFallback, dedupKeep, joinSep]
    · unfold lookupTeacher claimedLookup
      rw [if_neg (by simp [hg, hm])]

/-- The schedule map of the C2 witness. -/
def c2map : List (PStr × PStr) := [(pstr ("6.1"), pstr ("Smith")), (pstr ("6.2"), pstr ("Jones"))]

/-- Witness for C2 amended at the concrete inputs of the claim. -/
theorem claim_C2_witness :
    (∀ e ∈ c2map, e.1 ≠ ([] : PStr)) ∧
    lookupTeacher (pstr ("6th Grade")) c2map = pstr ("Smith / Jones") ∧
    lookupTeacher (pstr ("9th Grade")) c2map = [] ∧
    lookupTeacher (pstr ("6th Grade")) c2map = claimedLookup (pyStrip (pstr ("6th Grade"))) c2map :=
  ⟨by decide, by decide, by decide, claim_C2_lookup_amended (pstr ("6th Grade")) c2map (by decide)⟩

/-! Extracted sheet data and the schedule-map builder `_build_teacher_map`. -/

/-- One extracted sheet as produced by `_extract_sheet_data` and consumed by
`_normalize_and_match_fields`: name, header row, data rows, and the schedule
metadata; the two title-row fields model `class_from_title` and
`teacher_from_title` with `none` for Python `None`. -/
structure SheetData where
  name : PStr
  headers : List PStr
  rows : List (List PStr)
  isSchedule : Bool
  scheduleData : List (PStr × PStr)
  classFromTitle : Option PStr
  teacherFromTitle : Option PStr

/-- The schedule entries of all schedule sheets, in sheet order, as iterated
by `_build_teacher_map`. -/
def scheduleEntries (sheets : List SheetData) : List (PStr × PStr) :=
  sheets.foldl
    (fun acc sd => if sd.isSchedule ∧ sd.scheduleData ≠ [] then acc ++ sd.scheduleData else acc) []

/-- The trimmed non-empty slash-parts of a class code; 47 is the slash. -/
def splitParts (c : PStr) : List PStr :=
  ((splitOnC 47 c).map pyStrip).filter (fun p => p ≠ [])

/-- Insert one schedule entry: the full class code, and, when it contains a
slash, every trimmed non-empty part, all mapped to the same teacher. -/
def insertEntry (m : List (PStr × PStr)) (e : PStr × PStr) : List (PStr × PStr) :=
  let m1 := insertA m e.1 e.2
  if (47 : Nat) ∈ e.1 then (splitParts e.1).foldl (fun mm p => insertA mm p e.2) m1 else m1

/-- Model of `_build_teacher_map`: fold the schedule entries into a dict. -/
def buildTeacherMap (sheets : List SheetData) : List (PStr × PStr) :=
  (scheduleEntries sheets).foldl insertEntry []

/-- The keys one schedule entry writes. -/
def writtenKeys (e : PStr × PStr) : List PStr :=
  e.1 :: (if (47 : Nat) ∈ e.1 then splitParts e.1 else [])

theorem lookupA_insertA (m : List (PStr × PStr)) (k v q : PStr) :
    lookupA (insertA m k v) q = if q = k then some v else lookupA m q := by
  induction m with
  | nil =>
    simp only [insertA, lookupA]
    by_cases hq : k = q
    · rw [if_pos hq, if_pos hq.symm]
    · rw [if_neg hq, if_neg (fun h => hq h.symm)]
  | cons e t ih =>
    obtain ⟨k0, v0⟩ := e
    by_cases h0 : k0 = k
    · subst h0
      simp only [insertA, if_pos rfl, lookupA]
      by_cases hq : k0 = q
      · rw [if_pos hq, if_pos hq.symm]
      · rw [if_neg hq, if_neg (fun h => hq h.symm), if_neg hq]
    · simp only [insertA, if_neg h0, lookupA]
      by_cases hq : k0 = q
      · rw [if_pos hq, if_neg (fun h => h0 (hq.trans h)), if_pos hq]
      · rw [if_neg hq, ih, if_neg hq]

theorem lookupA_foldl_insert_list (parts : List PStr) (v : PStr) :
    ∀ (m : List (PStr × PStr)) (q : PStr),
    lookupA (parts.foldl (fun mm p => insertA mm p v) m) q =
      if q ∈ parts then some v else lookupA m q := by
  induction parts with
  | nil => intro m q; simp
  | cons p ps ih =>
    intro m q
    simp only [List.foldl_cons]
    rw [ih]
    by_cases hps : q ∈ ps
    · simp [hps]
    · rw [lookupA_insertA]
      by_cases hp : q = p
      · simp [hps, hp]
      · simp [hps, hp]

theorem mem_of_mem_pyStrip {c : Nat} {s : PStr} (h : c ∈ pyStrip s) : c ∈ s := by
  unfold pyStrip at h
  rw [List.mem_reverse] at h
  have h2 := (List.dropWhile_sublist (l := (s.dropWhile isWS).reverse) isWS).subset h
  rw [List.mem_reverse] at h2
  exact (List.dropWhile_sublist isWS).subset h2

theorem splitOnC_parts_no_sep {sep : Nat} {s : PStr} : ∀ x ∈ splitOnC sep s, sep ∉ x := by
  induction s with
  | nil => intro x hx; simp [splitOnC] at hx; simp [hx]
  | cons c t ih =>
    intro x hx
    rcases hs : splitOnC sep t with _ | ⟨h1, r⟩
    · exact absurd hs (splitOnC_ne_nil sep t)
    · simp only [splitOnC, hs] at hx
      by_cases hc : c = sep
      · simp only [hc, if_pos rfl] at hx
        rcases List.mem_cons.mp hx with hx1 | hx1
        · simp [hx1]
        · exact ih x (hs ▸ hx1)
      · simp only [hc, if_neg hc] at hx
        rcases List.mem_cons.mp hx with hx1 | hx1
        · rw [hx1]
          intro hmem
          rcases List.mem_cons.mp hmem with h2 | h2
          · exact hc h2.symm
          · exact ih h1 (hs ▸ List.mem_cons_self h1 r) h2
        · exact ih x (hs ▸ List.mem_cons_of_mem h1 hx1)

theorem splitParts_no_slash {c p : PStr} (hp : p ∈ splitParts c) : (47 : Nat) ∉ p := by
  unfold splitParts at hp
  have hp2 := List.mem_of_mem_filter hp
  obtain ⟨x, hx, hpx⟩ := List.mem_map.mp hp2
  rw [← hpx]
  intro hmem
  exact splitOnC_parts_no_sep x hx (mem_of_mem_pyStrip hmem)

theorem lookupA_insertEntry (m : List (PStr × PStr)) (e : PStr × PStr) (q : PStr) :
    lookupA (insertEntry m e) q = if q ∈ writtenKeys e then some e.2 else lookupA m q := by
  unfold insertEntry writtenKeys
  by_cases h47 : (47 : Nat) ∈ e.1
  · simp only [h47, if_true]
    rw [lookupA_foldl_insert_list, lookupA_insertA]
    by_cases hq : q ∈ splitParts e.1
    · rw [if_pos hq, if_pos (List.mem_cons_of_mem _ hq)]
    · by_cases hq1 : q = e.1
      · rw [if_neg hq, if_pos hq1, if_pos (by rw [hq1]; exact List.mem_cons_self _ _)]
      · rw [if_neg hq, if_neg hq1, if_neg ?_]
        intro hmem
        rcases List.mem_cons.mp hmem with h2 | h2
        · exact hq1 h2
        · exact hq h2
  · simp only [h47, if_false]
    rw [lookupA_insertA]
    by_cases hq1 : q = e.1
    · rw [if_pos hq1, if_pos (by rw [hq1]; exact List.mem_cons_self _ _)]
    · rw [if_neg hq1, if_neg ?_]
      intro hmem
      rcases List.mem_cons.mp hmem with h2 | h2
      · exact hq1 h2
      · simp at h2

theorem lookupA_foldl_insertEntry_untouched (L : List (PStr × PStr)) :
    ∀ (m : List (PStr × PStr)) (q : PStr), (∀ e ∈ L, q ∉ writtenKeys e) →
    lookupA (L.foldl insertEntry m) q = lookupA m q := by
  induction L with
  | nil => intro m q _; rfl
  | cons e L2 ih =>
    intro m q h
    simp only [List.foldl_cons]
    rw [ih (insertEntry m e) q (fun e2 he2 => h e2 (List.mem_cons_of_mem e he2))]
    rw [lookupA_insertEntry, if_neg (h e (List.mem_cons_self e L2))]

/-- The parts-present invariant: for every composite key in the map, every
trimmed non-empty part of it is also a key. -/
def partsPresent (m : List (PStr × PStr)) : Prop :=
  ∀ k : PStr, (lookupA m k).isSome = true → (47 : Nat) ∈ k →
    ∀ p ∈ splitParts k, (lookupA m p).isSome = true

theorem partsPresent_insertEntry {m : List (PStr × PStr)} (hm : partsPresent m)
    (e : PStr × PStr) : partsPresent (insertEntry m e) := by
  intro k hk h47 p hp
  rw [lookupA_insertEntry] at hk ⊢
  by_cases hkw : k ∈ writtenKeys e
  · rcases List.mem_cons.mp hkw with hk1 | hkrest
    · subst hk1
      have h47e : (47 : Nat) ∈ e.1 := h47
      rw [if_pos ?_]
      · simp
      · unfold writtenKeys
        rw [if_pos h47e]
        exact List.mem_cons_of_mem _ hp
    · exfalso
      by_cases h47e : (47 : Nat) ∈ e.1
      · rw [if_pos h47e] at hkrest
        exact splitParts_no_slash hkrest h47
      · rw [if_neg h47e] at hkrest
        simp at hkrest
  · rw [if_neg hkw] at hk
    by_cases hpw : p ∈ writtenKeys e
    · rw [if_pos hpw]; simp
    · rw [if_neg hpw]
      exact hm k hk h47 p hp

theorem partsPresent_foldl (L : List (PStr × PStr)) :
    ∀ m : List (PStr × PStr), partsPresent m → partsPresent (L.foldl insertEntry m) := by
  induction L with
  | nil => intro m hm; exact hm
  | cons e L2 ih =>
    intro m hm
    simp only [List.foldl_cons]
    exact ih (insertEntry m e) (partsPresent_insertEntry hm e)

theorem partsPresent_buildTeacherMap (sheets : List SheetData) :
    partsPresent (buildTeacherMap sheets) := by
  unfold buildTeacherMap
  apply partsPresent_foldl
  intro k hk
  simp [lookupA] at hk

/-- The schedule sheet of the C3 counterexample: a composite class code and a
later row that re-maps one of its parts. -/
def c3sheet : SheetData :=
  ⟨pstr ("Schedule"), [], [], true,
   [(pstr ("8.3 / 8.1"), pstr ("A")), (pstr ("8.1"), pstr ("B"))], none, none⟩

/-- C3 counterexample: the composite key is present and maps to A, its part
8.1 is present but maps to B, because the later schedule row for 8.1 overwrote
the part entry; so composite and part do not map to the same supervisor. -/
theorem claim_C3_counterexample :
    lookupA (buildTeacherMap [c3sheet]) (pstr ("8.3 / 8.1")) = some (pstr ("A")) ∧
    lookupA (buildTeacherMap [c3sheet]) (pstr ("8.1")) = some (pstr ("B")) ∧
    (47 : Nat) ∈ pstr ("8.3 / 8.1") ∧
    pstr ("8.1") ∈ splitParts (pstr ("8.3 / 8.1")) ∧
    pstr ("A") ≠ pstr ("B") :=
  ⟨by decide, by decide, by decide, by decide, by decide⟩

/-- C3 amended: the parts of a composite key are always present as keys; and
when no later schedule row writes the composite or one of its parts, the
composite and all its parts map to the supervisor of that row. -/
theorem claim_C3_composite_amended :
    (∀ (sheets : List SheetData) (k : PStr),
      (lookupA (buildTeacherMap sheets) k).isSome = true → (47 : Nat) ∈ k →
      ∀ p ∈ splitParts k, (lookupA (buildTeacherMap sheets) p).isSome = true) ∧
    (∀ (sheets : List SheetData) (L1 L2 : List (PStr × PStr)) (c t : PStr),
      scheduleEntries sheets = L1 ++ (c, t) :: L2 → (47 : Nat) ∈ c →
      (∀ e ∈ L2, ∀ w ∈ writtenKeys e, w ∉ writtenKeys (c, t)) →
      lookupA (buildTeacherMap sheets) c = some t ∧
        ∀ p ∈ splitParts c, lookupA (buildTeacherMap sheets) p = some t) := by
  constructor
  · intro sheets k hk h47 p hp
    exact partsPresent_buildTeacherMap sheets k hk h47 p hp
  · intro sheets L1 L2 c t hdecomp h47 hdisj
    have hbuild : buildTeacherMap sheets =
        L2.foldl insertEntry (insertEntry (L1.foldl insertEntry []) (c, t)) := by
      unfold buildTeacherMap
      rw [hdecomp, List.foldl_append, List.foldl_cons]
    constructor
    · rw [hbuild]
      rw [lookupA_foldl_insertEntry_untouched L2 _ c
        (fun e he hw => hdisj e he c hw (List.mem_cons_self _ _))]
      rw [lookupA_insertEntry,
        if_pos (show c ∈ writtenKeys (c, t) from List.mem_cons_self _ _)]
    · intro p hp
      have hpw : p ∈ writtenKeys (c, t) := by
        unfold writtenKeys
        rw [if_pos h47]
        exact List.mem_cons_of_mem _ hp
      rw [hbuild]
      rw [lookupA_foldl_insertEntry_untouched L2 _ p
        (fun e he hw => hdisj e he p hw hpw)]
      rw [lookupA_insertEntry, if_pos hpw]

/-- The schedule sheet of the C3 witness. -/
def c3sheet1 : SheetData :=
  ⟨pstr ("Schedule"), [], [], true, [(pstr ("8.3 / 8.1"), pstr ("A"))], none, none⟩

/-- Witness for C3 amended at a concrete composite entry with no later rows. -/
theorem claim_C3_witness :
    scheduleEntries [c3sheet1] = [] ++ (pstr ("8.3 / 8.1"), pstr ("A")) :: [] ∧
    lookupA (buildTeacherMap [c3sheet1]) (pstr ("8.3 / 8.1")) = some (pstr ("A")) ∧
    ∀ p ∈ splitParts (pstr ("8.3 / 8.1")),
      lookupA (buildTeacherMap [c3sheet1]) p = some (pstr ("A")) := by
  refine ⟨by decide, ?_⟩
  have h := claim_C3_composite_amended.2 [c3sheet1] [] [] (pstr ("8.3 / 8.1")) (pstr ("A"))
    (by decide) (by decide) (by intro e he; simp at he)
  exact h

/-! Model of `_normalize_and_match_fields` and its helpers. -/

/-- Substring containment on code-point lists, modelling Python `in`. -/
def containsSub (pat : PStr) : PStr → Bool
  | [] => listStarts pat []
  | c :: t => listStarts pat (c :: t) || containsSub pat t

/-- The `field_patterns` lists of `_normalize_and_match_fields`. -/
def fpStudentName : List PStr :=
  [pstr ("name"), pstr ("student"), pstr ("student name"), pstr ("full name"),
   pstr ("student full name"), pstr ("stu name")]

def fpFirstName : List PStr :=
  [pstr ("first name"), pstr ("fname"), pstr ("first"), pstr ("given name"),
   pstr ("student first name"), pstr ("given")]

def fpLastName : List PStr :=
  [pstr ("last name"), pstr ("lname"), pstr ("last"), pstr ("surname"),
   pstr ("student last name"), pstr ("family name")]

def fpClassId : List PStr :=
  [pstr ("class"), pstr ("class id"), pstr ("class section"), pstr ("section"),
   pstr ("class section id"), pstr ("ocl"), pstr ("grade"), pstr ("homeroom")]

def fpTeacher : List PStr :=
  [pstr ("teacher"), pstr ("teacher name"), pstr ("homeroom teacher"),
   pstr ("instructor"), pstr ("tchr"), pstr ("homeroom")]

def fpGrade : List PStr := [pstr ("grade"), pstr ("grade level"), pstr ("year"), pstr ("level")]

def fpAdvisor : List PStr := [pstr ("advisor"), pstr ("adviser"), pstr ("adv")]

/-- Model of `_header_matches_patterns`: falsy header never matches; else
lower-and-strip the header and test exact equality against each pattern, then
substring containment of each pattern. -/
def headerMatchesPatterns (h : PStr) (pats : List PStr) : Bool :=
  if h = [] then false
  else
    let hc := pyStrip (pyLower h)
    pats.any (fun p => hc = pyLower p) || pats.any (fun p => containsSub (pyLower p) hc)

/-- Column scan of `_match_headers_to_fields`: first column index that is not
already used and matches the patterns. -/
def findColGo (used : List Nat) (pats : List PStr) : Nat → List PStr → Option Nat
  | _, [] => none
  | i, h :: t =>
    if used.contains i then findColGo used pats (i + 1) t
    else if headerMatchesPatterns h pats then some i
    else findColGo used pats (i + 1) t

def findCol (headers : List PStr) (used : List Nat) (pats : List PStr) : Option Nat :=
  findColGo used pats 0 headers

/-- The resolved field indices of one sheet. -/
structure FieldIdx where
  firstName : Option Nat
  lastName : Option Nat
  studentName : Option Nat
  classId : Option Nat
  teacher : Option Nat
  grade : Option Nat
  advisor : Option Nat

/-- Model of `_match_headers_to_fields`: fields matched in priority order
first name, last name, student name, class, teacher, grade, advisor, a column
already claimed by an earlier field being skipped. -/
def matchHeadersToFields (headers : List PStr) : FieldIdx :=
  let fN := findCol headers [] fpFirstName
  let u1 := fN.toList
  let lN := findCol headers u1 fpLastName
  let u2 := u1 ++ lN.toList
  let sN := findCol headers u2 fpStudentName
  let u3 := u2 ++ sN.toList
  let cI := findCol headers u3 fpClassId
  let u4 := u3 ++ cI.toList
  let tE := findCol headers u4 fpTeacher
  let u5 := u4 ++ tE.toList
  let gR := findCol headers u5 fpGrade
  let u6 := u5 ++ gR.toList
  let aD := findCol headers u6 fpAdvisor
  ⟨fN, lN, sN, cI, tE, gR, aD⟩

/-- Model of the `get_field` closure: the stripped cell at the resolved index,
empty when the field is unresolved or the row is too short. -/
def getField (row : List PStr) (idx : Option Nat) : PStr :=
  match idx with
  | some i => if i < row.length then pyStrip (row.getD i []) else []
  | none => []

/-- Python `or` on strings: the first truthy value. -/
def orS (a b : PStr) : PStr := if a = [] then b else a

/-- One normalized record. -/
structure NRecord where
  student_name : PStr
  class_id : PStr
  teacher : PStr
  grade : PStr
  advisor : PStr
  source_sheet : PStr

/-- Model of `_create_normalized_record`: the full-name cell first, else first
and last joined with one blank and stripped; none when empty; the class falls
back to the title-row class then the sheet name, the teacher to the title-row
teacher; the name is cleaned with `cleanName`. -/
def createNormalizedRecord (row : List PStr) (fi : FieldIdx)
    (sheetName defaultClass defaultTeacher : PStr) : Option NRecord :=
  let sn0 := getField row fi.studentName
  let sn := if sn0 = [] then
      (let f := getField row fi.firstName
       let l := getField row fi.lastName
       if f ≠ [] ∨ l ≠ [] then pyStrip (f ++ [32] ++ l) else [])
    else sn0
  if sn = [] then none
  else some
    { student_name := cleanName sn
      class_id := orS (getField row fi.classId) (orS defaultClass sheetName)
      teacher := orS (getField row fi.teacher) defaultTeacher
      grade := getField row fi.grade
      advisor := getField row fi.advisor
      source_sheet := sheetName }

/-- Model of `_check_for_teacher_column`: some non-schedule sheet with headers
and rows has a header containing teacher whose column holds a truthy,
non-whitespace value in one of the first 10 data rows. -/
def checkForTeacherColumn (sheets : List SheetData) : Bool :=
  sheets.any (fun sd =>
    if sd.isSchedule then false
    else if sd.headers = [] ∨ sd.rows = [] then false
    else
      match sd.headers.findIdx? (fun h => containsSub (pstr ("teacher")) (pyStrip (pyLower h))) with
      | none => false
      | some i =>
        (sd.rows.take 10).any (fun row =>
          decide (i < row.length) && !(row.getD i []).isEmpty &&
            !(pyStrip (row.getD i [])).isEmpty))

/-- Model of the per-row body of `_normalize_and_match_fields`: build the
record, keep it only when its student name is truthy, and fill an empty
teacher from the schedule map when one is available. -/
def processRow (tm : List (PStr × PStr)) (fi : FieldIdx) (sheetName dc dt : PStr)
    (row : List PStr) : Option NRecord :=
  match createNormalizedRecord row fi sheetName dc dt with
  | none => none
  | some r =>
    if r.student_name = [] then none
    else if (r.teacher = [] ∨ pyStrip r.teacher = []) ∧ tm ≠ [] then
      some { r with teacher := lookupTeacher (orS r.grade r.class_id) tm }
    else some r

/-- The records of one sheet; schedule sheets contribute nothing. -/
def sheetRecords (tm : List (PStr × PStr)) (sd : SheetData) : List NRecord :=
  if sd.isSchedule then []
  else
    sd.rows.filterMap (processRow tm (matchHeadersToFields sd.headers) sd.name
      (orS (sd.classFromTitle.getD []) sd.name) (sd.teacherFromTitle.getD []))

/-- Model of `_normalize_and_match_fields`: the schedule map is built only
when no sheet already carries teacher data; then all sheets are processed in
order. -/
def normalizeAndMatchFields (sheets : List SheetData) : List NRecord :=
  let tm := if checkForTeacherColumn sheets then [] else buildTeacherMap sheets
  sheets.foldl (fun acc sd => acc ++ sheetRecords tm sd) []

/-- The per-row body with no schedule-map fill at all. -/
def processRowPlain (fi : FieldIdx) (sheetName dc dt : PStr) (row : List PStr) :
    Option NRecord :=
  match createNormalizedRecord row fi sheetName dc dt with
  | none => none
  | some r => if r.student_name = [] then none else some r

/-- The records of one sheet with no schedule-map fill. -/
def sheetRecordsPlain (sd : SheetData) : List NRecord :=
  if sd.isSchedule then []
  else
    sd.rows.filterMap (processRowPlain (matchHeadersToFields sd.headers) sd.name
      (orS (sd.classFromTitle.getD []) sd.name) (sd.teacherFromTitle.getD []))

/-- Normalization with the schedule-map lookup disabled. -/
def normalizeRecordsNoLookup (sheets : List SheetData) : List NRecord :=
  sheets.foldl (fun acc sd => acc ++ sheetRecordsPlain sd) []


theorem processRow_empty_map (fi : FieldIdx) (n dc dt : PStr) (row : List PStr) :
    processRow [] fi n dc dt row = processRowPlain fi n dc dt row := by
  unfold processRow processRowPlain
  rcases h : createNormalizedRecord row fi n dc dt with _ | r
  · rfl
  · by_cases hs : r.student_name = []
    · simp [hs]
    · simp [hs]

theorem sheetRecords_empty_map (sd : SheetData) : sheetRecords [] sd = sheetRecordsPlain sd := by
  unfold sheetRecords sheetRecordsPlain
  by_cases h : sd.isSchedule = true
  · simp [h]
  · simp only [Bool.not_eq_true] at h
    simp only [h, Bool.false_eq_true, if_false]
    congr 1
    funext row
    exact processRow_empty_map _ _ _ _ row

/-- C10: when some non-schedule sheet has a teacher column with data in its
first 10 rows, the schedule map is empty and normalization never consults it:
the output equals the no-lookup pipeline, for every sheet. -/
theorem claim_C10_teacher_column_gates_schedule_map (sheets : List SheetData)
    (h : checkForTeacherColumn sheets = true) :
    normalizeAndMatchFields sheets = normalizeRecordsNoLookup sheets := by
  unfold normalizeAndMatchFields normalizeRecordsNoLookup
  simp only [h, if_true]
  congr 1
  funext acc sd
  rw [sheetRecords_empty_map]

/-- The sheets of the C10 witness: one roster sheet with teacher data and one
schedule sheet. -/
def c10sheets : List SheetData :=
  [⟨pstr ("S1"), [pstr ("Name"), pstr ("Teacher")], [[pstr ("Bob"), pstr ("Ms X")]], false, [], none, none⟩,
   ⟨pstr ("Sched"), [], [], true, [(pstr ("6.1"), pstr ("Smith"))], none, none⟩]

/-- Witness for C10: the teacher column is detected, and the pipeline output
equals the no-lookup output. -/
theorem claim_C10_witness :
    checkForTeacherColumn c10sheets = true ∧
    normalizeAndMatchFields c10sheets = normalizeRecordsNoLookup c10sheets :=
  ⟨by decide, claim_C10_teacher_column_gates_schedule_map c10sheets (by decide)⟩

theorem mem_foldl_append {β : Type} (f : β → List NRecord) (L : List β) :
    ∀ (init : List NRecord) (x : NRecord),
    x ∈ L.foldl (fun acc sd => acc ++ f sd) init → x ∈ init ∨ ∃ sd ∈ L, x ∈ f sd := by
  induction L with
  | nil => intro init x h; exact Or.inl h
  | cons sd L2 ih =>
    intro init x h
    simp only [List.foldl_cons] at h
    rcases ih (init ++ f sd) x h with h0 | ⟨sd2, hsd2, hx⟩
    · rcases List.mem_append.mp h0 with h1 | h1
      · exact Or.inl h1
      · exact Or.inr ⟨sd, List.mem_cons_self sd L2, h1⟩
    · exact Or.inr ⟨sd2, List.mem_cons_of_mem sd hsd2, hx⟩

theorem ite_none_some {c : Prop} [Decidable c] {x r : NRecord}
    (h : (if c then none else some x) = some r) : r = x := by
  by_cases hc : c
  · rw [if_pos hc] at h; cases h
  · rw [if_neg hc] at h; exact (Option.some.inj h).symm

theorem createNormalizedRecord_shape {row : List PStr} {fi : FieldIdx} {n dc dt : PStr}
    {r : NRecord} (h : createNormalizedRecord row fi n dc dt = some r) :
    ∃ sn, r.student_name = cleanName sn := by
  simp only [createNormalizedRecord] at h
  have h2 := ite_none_some h
  exact ⟨_, by rw [h2]⟩

theorem processRow_some {tm : List (PStr × PStr)} {fi : FieldIdx} {n dc dt : PStr}
    {row : List PStr} {r : NRecord} (h : processRow tm fi n dc dt row = some r) :
    r.student_name ≠ [] ∧ ∃ sn, r.student_name = cleanName sn := by
  unfold processRow at h
  rcases hc : createNormalizedRecord row fi n dc dt with _ | r0
  · rw [hc] at h; simp at h
  · rw [hc] at h
    have h2 : (if r0.student_name = [] then (none : Option NRecord)
        else if (r0.teacher = [] ∨ pyStrip r0.teacher = []) ∧ tm ≠ [] then
          some { r0 with teacher := lookupTeacher (orS r0.grade r0.class_id) tm }
        else some r0) = some r := h
    by_cases hs : r0.student_name = []
    · rw [if_pos hs] at h2; cases h2
    · rw [if_neg hs] at h2
      obtain ⟨sn, hsn⟩ := createNormalizedRecord_shape hc
      by_cases hfill : (r0.teacher = [] ∨ pyStrip r0.teacher = []) ∧ tm ≠ []
      · rw [if_pos hfill] at h2
        have h3 := Option.some.inj h2
        refine ⟨?_, sn, ?_⟩
        · rw [← h3]; exact hs
        · rw [← h3]; exact hsn
      · rw [if_neg hfill] at h2
        have h3 := Option.some.inj h2
        refine ⟨?_, sn, ?_⟩
        · rw [← h3]; exact hs
        · rw [← h3]; exact hsn

theorem normalize_student_name_props (sheets : List SheetData) (r : NRecord)
    (h : r ∈ normalizeAndMatchFields sheets) :
    r.student_name ≠ [] ∧ pyStrip r.student_name = r.student_name := by
  simp only [normalizeAndMatchFields] at h
  rcases mem_foldl_append _ sheets [] r h with h0 | ⟨sd, _, hr⟩
  · cases h0
  · unfold sheetRecords at hr
    by_cases hsched : sd.isSchedule = true
    · rw [if_pos hsched] at hr; cases hr
    · rw [if_neg hsched] at hr
      obtain ⟨row, _, hp⟩ := List.mem_filterMap.mp hr
      obtain ⟨hne, sn, hsn⟩ := processRow_some hp
      exact ⟨hne, by rw [hsn]; exact pyStrip_cleanName sn⟩

/-- C1 counterexample: the grouper skips rows with a falsy person cell, but a
whitespace-only person cell is truthy, passes the check, and its stripped
value — the empty string — is added to the people set; so the grouper alone
can add an empty person name. -/
theorem claim_C1_counterexample :
    lookupG (pstr ("6.1")) (groupByClass [⟨pstr ("6.1"), [32], []⟩]) =
      some ([], [([] : PStr)]) := by decide

/-- C1 amended: every record of the normalization output has a non-empty
student name; and the grouped output built from those records never contains
an empty person name (the grouper adds the stripped person cell, and every
normalized name is stripped and non-empty). -/
theorem claim_C1_nonempty_names_amended :
    (∀ (sheets : List SheetData), ∀ r ∈ normalizeAndMatchFields sheets,
      r.student_name ≠ []) ∧
    (∀ (sheets : List SheetData) (cls t : PStr) (ss : List PStr) (p : PStr),
      lookupG cls (groupByClass ((normalizeAndMatchFields sheets).map
        (fun r => (⟨r.class_id, r.student_name, r.teacher⟩ : GRow)))) = some (t, ss) →
      p ∈ ss → p ≠ []) := by
  constructor
  · intro sheets r h
    exact (normalize_student_name_props sheets r h).1
  · intro sheets cls t ss p h hp
    refine groupByClass_students_nonempty _ ?_ cls t ss p h hp
    intro row hrow
    obtain ⟨r, hr, hrr⟩ := List.mem_map.mp hrow
    obtain ⟨hne, hstr⟩ := normalize_student_name_props sheets r hr
    rw [← hrr]
    simpa [hstr] using hne

/-- The sheets of the C1 witness. -/
def c1sheets : List SheetData :=
  [⟨pstr ("S1"), [pstr ("Name"), pstr ("Class")], [[pstr ("Bob"), pstr ("6.1")]], false, [], none, none⟩]

/-- Witness for C1 amended on a concrete sheet. -/
theorem claim_C1_witness :
    (∀ r ∈ normalizeAndMatchFields c1sheets, r.student_name ≠ []) ∧
    lookupG (pstr ("6.1")) (groupByClass ((normalizeAndMatchFields c1sheets).map
      (fun r => (⟨r.class_id, r.student_name, r.teacher⟩ : GRow)))) =
        some ([], [pstr ("Bob")]) ∧
    pstr ("Bob") ≠ ([] : PStr) :=
  ⟨claim_C1_nonempty_names_amended.1 c1sheets, by decide,
   claim_C1_nonempty_names_amended.2 c1sheets (pstr ("6.1")) [] [pstr ("Bob")] (pstr ("Bob"))
     (by decide) (by decide)⟩

/-- C7: name cleaning is idempotent on every string, and the examples of the
claim: MCDONALD cleans to McDonald, and cleaning McDonald again returns it
unchanged. -/
theorem claim_C7_clean_name_idempotent :
    (∀ s : PStr, cleanName (cleanName s) = cleanName s) ∧
    cleanName (pstr ("MCDONALD")) = pstr ("McDonald") ∧
    cleanName (pstr ("McDonald")) = pstr ("McDonald") :=
  ⟨cleanName_idempotent, by decide, by decide⟩

/-! Model of `ROCLCleaningStage._find_header_row_and_indices` and the ROCL
name construction. -/

def roclClassHeaders : List PStr :=
  [pstr ("class"), pstr ("class id"), pstr ("class#"), pstr ("ocl"), pstr ("class section id"),
   pstr ("class section"), pstr ("section"), pstr ("grade"), pstr ("grade level")]

def roclStudentFullHeaders : List PStr :=
  [pstr ("name"), pstr ("student"), pstr ("student name"), pstr ("full name"),
   pstr ("student full"), pstr ("stu name")]

def roclStudentFirstHeaders : List PStr :=
  [pstr ("first name"), pstr ("fname"), pstr ("student first name"), pstr ("given name"),
   pstr ("first"), pstr ("fname")]

def roclStudentLastHeaders : List PStr :=
  [pstr ("last name"), pstr ("lname"), pstr ("student last name"), pstr ("surname"),
   pstr ("last"), pstr ("lname")]

def roclTeacherHeaders : List PStr :=
  [pstr ("teacher"), pstr ("teacher name"), pstr ("homeroom teacher"), pstr ("tchr")]

def roclAdvisorHeaders : List PStr := [pstr ("advisor"), pstr ("adv"), pstr ("adviser")]

/-- The two-pass column scan of the ROCL `find_header` closure: exact match
of any candidate, candidate-major, else substring containment. -/
def findHeaderR (hs : List PStr) (cands : List PStr) : Option Nat :=
  match cands.findSome? (fun c => hs.findIdx? (fun h => decide (h = pyLower c))) with
  | some i => some i
  | none => cands.findSome? (fun c => hs.findIdx? (fun h => containsSub (pyLower c) h))

/-- The field indices the ROCL matcher resolves for one header row. -/
structure RIdx where
  sfull : Option Nat
  sfirst : Option Nat
  slast : Option Nat
  cIdx : Option Nat
  tIdx : Option Nat
  aIdx : Option Nat

/-- One header-row candidate of `_find_header_row_and_indices`: none unless a
usable name resolves; when both first and last resolve the full-name index is
discarded; the quality score is computed from the post-discard indices. -/
def rowCandidate (row : List PStr) : Option (Nat × RIdx) :=
  let hs := row.map (fun h => pyStrip (pyLower h))
  let sf := findHeaderR hs roclStudentFullHeaders
  let sfi := findHeaderR hs roclStudentFirstHeaders
  let sla := findHeaderR hs roclStudentLastHeaders
  let ci := findHeaderR hs roclClassHeaders
  let ti := findHeaderR hs roclTeacherHeaders
  let ai := findHeaderR hs roclAdvisorHeaders
  if sf.isSome = true ∨ (sfi.isSome = true ∧ sla.isSome = true) then
    let sf2 := if sfi.isSome = true ∧ sla.isSome = true then none else sf
    let q1 : Nat := match sf2 with
      | some i =>
        if hs.getD i [] ∈ [pstr ("name"), pstr ("student name"), pstr ("student"), pstr ("full name")]
        then 2 else 0
      | none => 0
    let q2 : Nat := match ti with
      | some i => if hs.getD i [] = pstr ("teacher") then 2 else 0
      | none => 0
    let q3 : Nat := match ci with
      | some i => if hs.getD i [] ∈ [pstr ("class"), pstr ("class id"), pstr ("section")] then 1 else 0
      | none => 0
    some (q1 + q2 + q3, ⟨sf2, sfi, sla, ci, ti, ai⟩)
  else none

/-- Model of `_find_header_row_and_indices`: scan the first 10 rows, collect
candidates, keep the highest score with the earliest row on ties (the Python
sort is stable and descending on score), and fall back to the fixed positions
column 0 name, column 1 class, column 2 teacher when no candidate exists. -/
def findHeaderRowAndIndices (rows : List (List PStr)) : Option Nat × RIdx :=
  let cands := (rows.take 10).enum.filterMap
    (fun p => (rowCandidate p.2).map (fun q => (q.1, p.1, q.2)))
  match cands with
  | [] => (none, ⟨some 0, none, none, some 1, some 2, none⟩)
  | c0 :: rest =>
    let best := rest.foldl (fun b c => if c.1 > b.1 then c else b) c0
    (some best.2.1, best.2.2)

/-- Model of the ROCL `get` closure over one data row. -/
def getCellR (vals : List PStr) (idx : Option Nat) : PStr :=
  match idx with
  | some i => if i < vals.length then vals.getD i [] else []
  | none => []

/-- Model of `ROCLCleaningStage._fix_name_capitalization`: three sequential
checks (not `elif`), Mc, then Mac, then the apostrophe rewrite. -/
def roclFixNameCapitalization (s : PStr) : PStr :=
  let s1 := match s with
    | a :: b :: c :: t => if a = 77 ∧ b = 99 then a :: b :: toUpperC c :: t else a :: b :: c :: t
    | _ => s
  let s2 := match s1 with
    | a :: b :: c :: d :: t =>
      if a = 77 ∧ b = 97 ∧ c = 99 then a :: b :: c :: toUpperC d :: t else a :: b :: c :: d :: t
    | _ => s1
  if hasOApos s2 then applyOFix s2 else s2

/-- Model of `ROCLCleaningStage._clean_name`: strip, always title-case, then
the prefix fix-ups. -/
def roclCleanName (s : PStr) : PStr := roclFixNameCapitalization (pyTitle (pyStrip s))

/-- Model of the ROCL first-and-last join: keep the truthy components, strip
each, join with one blank, strip the result. -/
def roclJoin (f l : PStr) : PStr :=
  pyStrip (joinSep [32] (([f, l].filter (fun x => x ≠ [])).map pyStrip))

/-- Model of the student-name construction of `_extract_and_clean`: the full
cell when truthy, else the joined first and last cells. -/
def roclStudentName (idxs : RIdx) (vals : List PStr) : PStr :=
  let full := getCellR vals idxs.sfull
  if full ≠ [] then roclCleanName full
  else roclCleanName (roclJoin (getCellR vals idxs.sfirst) (getCellR vals idxs.slast))


theorem ite_some_eq {α : Type} {c : Prop} [Decidable c] {x r : α}
    (h : (if c then some x else none) = some r) : r = x := by
  by_cases hc : c
  · rw [if_pos hc] at h; exact (Option.some.inj h).symm
  · rw [if_neg hc] at h; cases h

theorem rowCandidate_discard {row : List PStr} {c : Nat × RIdx}
    (h : rowCandidate row = some c) (h1 : c.2.sfirst.isSome = true)
    (h2 : c.2.slast.isSome = true) : c.2.sfull = none := by
  simp only [rowCandidate] at h
  have hc := ite_some_eq h
  rw [hc] at h1 h2 ⊢
  simp only at h1 h2 ⊢
  simp [h1, h2]

theorem foldl_max_mem {α : Type} (rest : List (Nat × α)) :
    ∀ c0 : Nat × α,
    (rest.foldl (fun b c => if c.1 > b.1 then c else b) c0) ∈ c0 :: rest := by
  induction rest with
  | nil => intro c0; exact List.mem_cons_self c0 []
  | cons x xs ih =>
    intro c0
    simp only [List.foldl_cons]
    rcases List.mem_cons.mp (ih (if x.1 > c0.1 then x else c0)) with h | h
    · rw [h]
      by_cases hx : x.1 > c0.1
      · rw [if_pos hx]; exact List.mem_cons_of_mem c0 (List.mem_cons_self x xs)
      · rw [if_neg hx]; exact List.mem_cons_self c0 (x :: xs)
    · exact List.mem_cons_of_mem c0 (List.mem_cons_of_mem x h)

/-- C6 amended, ROCL part: for every sheet, when the chosen header row
resolves both a first and a last name column, the full-name index is
discarded, and the student name of every data row is built from the first and last
cells through the ROCL cleaning, not from a full-name cell. -/
theorem rocl_first_last_priority (rows : List (List PStr)) (vals : List PStr)
    (h1 : (findHeaderRowAndIndices rows).2.sfirst.isSome = true)
    (h2 : (findHeaderRowAndIndices rows).2.slast.isSome = true) :
    (findHeaderRowAndIndices rows).2.sfull = none ∧
    roclStudentName (findHeaderRowAndIndices rows).2 vals =
      roclCleanName (roclJoin (getCellR vals (findHeaderRowAndIndices rows).2.sfirst)
        (getCellR vals (findHeaderRowAndIndices rows).2.slast)) := by
  have hfull : (findHeaderRowAndIndices rows).2.sfull = none := by
    unfold findHeaderRowAndIndices at h1 h2 ⊢
    rcases hcands : (rows.take 10).enum.filterMap
        (fun p => (rowCandidate p.2).map (fun q => (q.1, p.1, q.2))) with _ | ⟨c0, rest⟩
    · rw [hcands] at h1
      simp at h1
    · rw [hcands] at h1 h2 ⊢
      simp only at h1 h2 ⊢
      set best := rest.foldl (fun b c => if c.1 > b.1 then c else b) c0 with hbest
      have hmem : best ∈ c0 :: rest := foldl_max_mem rest c0
      rw [← hcands] at hmem
      obtain ⟨p, _, hp⟩ := List.mem_filterMap.mp hmem
      rcases hrc : rowCandidate p.2 with _ | q
      · rw [hrc] at hp; cases hp
      · rw [hrc] at hp
        simp only [Option.map_some', Option.some.injEq] at hp
        have hq : best.2.2 = q.2 := by rw [← hp]
        rw [hq] at h1 h2 ⊢
        exact rowCandidate_discard hrc h1 h2
  refine ⟨hfull, ?_⟩
  unfold roclStudentName
  rw [hfull]
  simp [getCellR]

/-- C6 amended, JSON part: when the student-name field resolves to a column
whose cell is non-empty after stripping, the record takes its name from that
full-name cell, regardless of any resolved first and last columns. -/
theorem json_full_name_priority (headers row : List PStr) (n dc dt : PStr) (i : Nat)
    (hs : (matchHeadersToFields headers).studentName = some i)
    (hlen : i < row.length) (hne : pyStrip (row.getD i []) ≠ []) :
    (createNormalizedRecord row (matchHeadersToFields headers) n dc dt).map
      (fun r => r.student_name) = some (cleanName (pyStrip (row.getD i []))) := by
  have hget : getField row (matchHeadersToFields headers).studentName =
      pyStrip (row.getD i []) := by
    rw [hs]; simp [getField, hlen]
  have hne2 : ¬ pyStrip ((row[i]?).getD []) = [] := by
    simpa [List.getD] using hne
  have hrw : pyStrip ((row[i]?).getD []) = pyStrip (row.getD i []) := by
    simp [List.getD]
  simp [createNormalizedRecord, hget, hne, hne2, hrw]

/-- C6 amended: in the ROCL extractor, when the chosen header row resolves
both first and last name columns the full-name index is discarded and names
come from the first and last cells; in the JSON-universal extractor the
full-name cell takes priority instead, first and last being used only when
the full-name cell is empty. -/
theorem claim_C6_name_priority_amended :
    (∀ (rows : List (List PStr)) (vals : List PStr),
      (findHeaderRowAndIndices rows).2.sfirst.isSome = true →
      (findHeaderRowAndIndices rows).2.slast.isSome = true →
      (findHeaderRowAndIndices rows).2.sfull = none ∧
      roclStudentName (findHeaderRowAndIndices rows).2 vals =
        roclCleanName (roclJoin (getCellR vals (findHeaderRowAndIndices rows).2.sfirst)
          (getCellR vals (findHeaderRowAndIndices rows).2.slast))) ∧
    (∀ (headers row : List PStr) (n dc dt : PStr) (i : Nat),
      (matchHeadersToFields headers).studentName = some i →
      i < row.length → pyStrip (row.getD i []) ≠ [] →
      (createNormalizedRecord row (matchHeadersToFields headers) n dc dt).map
        (fun r => r.student_name) = some (cleanName (pyStrip (row.getD i [])))) :=
  ⟨rocl_first_last_priority, json_full_name_priority⟩

/-- The header row of the C6 counterexample. -/
def c6headers : List PStr := [pstr ("Name"), pstr ("First Name"), pstr ("Last Name")]

/-- C6 counterexample: in the JSON-universal extractor, a header row resolving
a full-name column AND first and last columns yields a record whose name comes
from the full-name cell, not from the first and last cells — the opposite of
the claimed priority. -/
theorem claim_C6_counterexample :
    (matchHeadersToFields c6headers).studentName = some 0 ∧
    (matchHeadersToFields c6headers).firstName = some 1 ∧
    (matchHeadersToFields c6headers).lastName = some 2 ∧
    (createNormalizedRecord [pstr ("Full Guy"), pstr ("John"), pstr ("Doe")]
      (matchHeadersToFields c6headers) (pstr ("S1")) (pstr ("S1")) []).map
        (fun r => r.student_name) = some (pstr ("Full Guy")) ∧
    pstr ("Full Guy") ≠ cleanName (pyStrip (pstr ("John") ++ [32] ++ pstr ("Doe"))) :=
  ⟨by decide, by decide, by decide, by decide, by decide⟩

/-- Witness for C6 amended at concrete inputs for both extractors. -/
theorem claim_C6_witness :
    ((findHeaderRowAndIndices [[pstr ("First Name"), pstr ("Last Name")]]).2.sfull = none ∧
      roclStudentName (findHeaderRowAndIndices [[pstr ("First Name"), pstr ("Last Name")]]).2
          [pstr ("John"), pstr ("Doe")] =
        roclCleanName (roclJoin
          (getCellR [pstr ("John"), pstr ("Doe")]
            (findHeaderRowAndIndices [[pstr ("First Name"), pstr ("Last Name")]]).2.sfirst)
          (getCellR [pstr ("John"), pstr ("Doe")]
            (findHeaderRowAndIndices [[pstr ("First Name"), pstr ("Last Name")]]).2.slast))) ∧
    (createNormalizedRecord [pstr ("Bob")] (matchHeadersToFields [pstr ("Name")])
      (pstr ("S")) (pstr ("S")) []).map (fun r => r.student_name) =
        some (cleanName (pyStrip ([pstr ("Bob")].getD 0 []))) :=
  ⟨claim_C6_name_priority_amended.1 [[pstr ("First Name"), pstr ("Last Name")]]
      [pstr ("John"), pstr ("Doe")] (by decide) (by decide),
   claim_C6_name_priority_amended.2 [pstr ("Name")] [pstr ("Bob")] (pstr ("S")) (pstr ("S")) [] 0
     (by decide) (by decide) (by decide)⟩

/-! Model of the teacher-text normalization of `_extract_teacher_map` and the
schedule extraction of `_extract_schedule_data`. -/

/-- Worker for `replaceAll`, structurally recursive on a fuel that bounds the
input length (each step consumes at least one input character). -/
def replaceAllGo (pat rep : PStr) : Nat → PStr → PStr
  | _, [] => []
  | 0, s => s
  | fuel + 1, c :: t =>
    if pat ≠ [] ∧ listStarts pat (c :: t) = true then
      rep ++ replaceAllGo pat rep fuel ((c :: t).drop pat.length)
    else c :: replaceAllGo pat rep fuel t

/-- Model of Python `str.replace(pat, rep)`: scan left to right, replacing
each non-overlapping occurrence of a non-empty pattern. -/
def replaceAll (pat rep s : PStr) : PStr := replaceAllGo pat rep s.length s

/-- Model of the ROCL teacher-text cleanup: replace each newline with
blank-slash-blank, replace each double blank with one blank, strip.  10 is
the newline, 32 the blank. -/
def roclNormalizeTeacher (t : PStr) : PStr :=
  pyStrip (replaceAll [32, 32] [32] (replaceAll [10] (pstr (" / ")) t))

/-- One loop step of `_extract_teacher_map`: column B (index 1) is the class,
column E (index 4) the teacher; falsy cells, empty stripped values and a
second header row are skipped; the teacher text is normalized. -/
def roclMapStep (m : List (PStr × PStr)) (row : List PStr) : List (PStr × PStr) :=
  let cv := row.getD 1 []
  let tv := row.getD 4 []
  if cv = [] ∨ tv = [] then m
  else
    let cs := pyStrip cv
    let ts := pyStrip tv
    if cs = [] ∨ ts = [] ∨ pyLower cs = pstr ("class") then m
    else insertA m cs (roclNormalizeTeacher ts)

/-- Model of `ROCLCleaningStage._extract_teacher_map`: rows 5 to 49 of the
schedule sheet (0-based indices 4 to 48). -/
def roclExtractTeacherMap (rows : List (List PStr)) : List (PStr × PStr) :=
  ((rows.drop 4).take 45).foldl roclMapStep []

/-- The header search of `_extract_schedule_data`: the first of the first 10
rows whose lowered-and-stripped cells contain the exact words class and
teacher; returns its 0-based index and the stripped header cells. -/
def findScheduleHeader (rows : List (List PStr)) : Option (Nat × List PStr) :=
  (rows.take 10).enum.findSome? (fun p =>
    let rowText := p.2.map (fun cell => pyStrip (pyLower cell))
    if (pstr ("class")) ∈ rowText ∧ (pstr ("teacher")) ∈ rowText then
      some (p.1, p.2.map (fun cell => pyStrip cell))
    else none)

/-- One loop step of `_extract_schedule_data`: short rows, falsy cells, empty
stripped values and a second header row are skipped; THE TEACHER TEXT IS
STORED MERELY STRIPPED. -/
def schedStep (ci ti : Nat) (acc : List (PStr × PStr)) (row : List PStr) :
    List (PStr × PStr) :=
  if row = [] ∨ row.length ≤ max ci ti then acc
  else
    let cv := row.getD ci []
    let tv := row.getD ti []
    if cv = [] ∨ tv = [] then acc
    else
      let cs := pyStrip cv
      let ts := pyStrip tv
      if cs = [] ∨ ts = [] ∨ pyLower cs = pstr ("class") then acc
      else acc ++ [(cs, ts)]

/-- Model of `JSONUniversalCleaningStage._extract_schedule_data`: locate the
header row, locate the first class and teacher columns by substring, then
collect the entries of all later rows. -/
def extractScheduleData (rows : List (List PStr)) : List (PStr × PStr) :=
  match findScheduleHeader rows with
  | none => []
  | some (hidx, headers) =>
    match headers.findIdx? (fun h => containsSub (pstr ("class")) (pyLower h)),
        headers.findIdx? (fun h => containsSub (pstr ("teacher")) (pyLower h)) with
    | some ci, some ti => (rows.drop (hidx + 1)).foldl (schedStep ci ti) []
    | some _, none => []
    | none, _ => []


theorem mem_replaceAllGo {x : Nat} (pat rep : PStr) :
    ∀ (fuel : Nat) (s : PStr), x ∈ replaceAllGo pat rep fuel s → x ∈ s ∨ x ∈ rep := by
  intro fuel
  induction fuel with
  | zero =>
    intro s hx
    cases s with
    | nil => simp [replaceAllGo] at hx
    | cons c t => exact Or.inl hx
  | succ fuel ih =>
    intro s hx
    cases s with
    | nil => simp [replaceAllGo] at hx
    | cons c t =>
      simp only [replaceAllGo] at hx
      by_cases hcond : pat ≠ [] ∧ listStarts pat (c :: t) = true
      · rw [if_pos hcond] at hx
        rcases List.mem_append.mp hx with h1 | h1
        · exact Or.inr h1
        · rcases ih _ h1 with h2 | h2
          · exact Or.inl (List.drop_subset _ _ h2)
          · exact Or.inr h2
      · rw [if_neg hcond] at hx
        rcases List.mem_cons.mp hx with h1 | h1
        · exact Or.inl (h1 ▸ List.mem_cons_self c t)
        · rcases ih t h1 with h2 | h2
          · exact Or.inl (List.mem_cons_of_mem c h2)
          · exact Or.inr h2

theorem not_mem_replaceAllGo_single (n : Nat) (rep : PStr) (hn : n ∉ rep) :
    ∀ (fuel : Nat) (s : PStr), s.length ≤ fuel → n ∉ replaceAllGo [n] rep fuel s := by
  intro fuel
  induction fuel with
  | zero =>
    intro s hs
    have h0 : s = [] := List.length_eq_zero.mp (Nat.le_zero.mp hs)
    subst h0
    simp [replaceAllGo]
  | succ fuel ih =>
    intro s hs hx
    cases s with
    | nil => simp [replaceAllGo] at hx
    | cons c t =>
      simp only [replaceAllGo] at hx
      simp only [List.length_cons, Nat.succ_le_succ_iff] at hs
      by_cases hc : n = c
      · have hcond : ([n] : PStr) ≠ [] ∧ listStarts [n] (c :: t) = true := by
          constructor
          · simp
          · simp [listStarts, hc]
        rw [if_pos hcond] at hx
        rcases List.mem_append.mp hx with h1 | h1
        · exact hn h1
        · have hdrop : (c :: t).drop ([n] : PStr).length = t := by simp
          rw [hdrop] at h1
          exact ih t hs h1
      · have hcond : ¬ (([n] : PStr) ≠ [] ∧ listStarts [n] (c :: t) = true) := by
          intro hco
          have := hco.2
          simp [listStarts] at this
          exact hc this
        rw [if_neg hcond] at hx
        rcases List.mem_cons.mp hx with h1 | h1
        · exact hc h1
        · exact ih t hs h1

theorem roclNormalizeTeacher_no_newline (t : PStr) : (10 : Nat) ∉ roclNormalizeTeacher t := by
  intro h
  have h2 := mem_of_mem_pyStrip h
  rcases mem_replaceAllGo [32, 32] [32] _ _ h2 with h3 | h3
  · exact not_mem_replaceAllGo_single 10 (pstr (" / ")) (by decide) _ _ (Nat.le_refl _) h3
  · simp at h3

theorem mem_insertA_entries {m : List (PStr × PStr)} {k v : PStr} {e : PStr × PStr}
    (h : e ∈ insertA m k v) : e ∈ m ∨ e = (k, v) := by
  induction m with
  | nil => simpa [insertA] using h
  | cons e0 t ih =>
    obtain ⟨k0, v0⟩ := e0
    by_cases h0 : k0 = k
    · simp only [insertA, if_pos h0] at h
      rcases List.mem_cons.mp h with h1 | h1
      · exact Or.inr (by rw [h1, h0])
      · exact Or.inl (List.mem_cons_of_mem _ h1)
    · simp only [insertA, if_neg h0] at h
      rcases List.mem_cons.mp h with h1 | h1
      · exact Or.inl (h1 ▸ List.mem_cons_self _ _)
      · rcases ih h1 with h2 | h2
        · exact Or.inl (List.mem_cons_of_mem _ h2)
        · exact Or.inr h2

theorem roclMapStep_no_newline {m : List (PStr × PStr)} {row : List PStr}
    (hm : ∀ e ∈ m, (10 : Nat) ∉ e.2) : ∀ e ∈ roclMapStep m row, (10 : Nat) ∉ e.2 := by
  intro e he
  simp only [roclMapStep] at he
  by_cases h1 : row.getD 1 [] = [] ∨ row.getD 4 [] = []
  · rw [if_pos h1] at he; exact hm e he
  · rw [if_neg h1] at he
    by_cases h2 : pyStrip (row.getD 1 []) = [] ∨ pyStrip (row.getD 4 []) = [] ∨
        pyLower (pyStrip (row.getD 1 [])) = pstr ("class")
    · rw [if_pos h2] at he; exact hm e he
    · rw [if_neg h2] at he
      rcases mem_insertA_entries he with h3 | h3
      · exact hm e h3
      · rw [h3]; exact roclNormalizeTeacher_no_newline _

theorem schedStep_stripped {ci ti : Nat} {acc : List (PStr × PStr)} {row : List PStr}
    (hm : ∀ e ∈ acc, pyStrip e.2 = e.2) : ∀ e ∈ schedStep ci ti acc row, pyStrip e.2 = e.2 := by
  intro e he
  simp only [schedStep] at he
  by_cases h1 : row = [] ∨ row.length ≤ max ci ti
  · rw [if_pos h1] at he; exact hm e he
  · rw [if_neg h1] at he
    by_cases h2 : row.getD ci [] = [] ∨ row.getD ti [] = []
    · rw [if_pos h2] at he; exact hm e he
    · rw [if_neg h2] at he
      by_cases h3 : pyStrip (row.getD ci []) = [] ∨ pyStrip (row.getD ti []) = [] ∨
          pyLower (pyStrip (row.getD ci [])) = pstr ("class")
      · rw [if_pos h3] at he; exact hm e he
      · rw [if_neg h3] at he
        rcases List.mem_append.mp he with h4 | h4
        · exact hm e h4
        · rw [List.mem_singleton.mp h4]
          exact pyStrip_idem _

/-- C9 amended: the ROCL schedule-map builder stores teacher text with every
newline replaced by blank-slash-blank (so no stored value contains a newline),
while the JSON-universal schedule extractor stores the teacher text merely
stripped, with no newline replacement at all. -/
theorem claim_C9_teacher_normalization_amended :
    (∀ (rows : List (List PStr)), ∀ e ∈ roclExtractTeacherMap rows, (10 : Nat) ∉ e.2) ∧
    (∀ (rows : List (List PStr)), ∀ e ∈ extractScheduleData rows, pyStrip e.2 = e.2) := by
  constructor
  · intro rows
    have main : ∀ (L : List (List PStr)) (m : List (PStr × PStr)),
        (∀ e ∈ m, (10 : Nat) ∉ e.2) → ∀ e ∈ L.foldl roclMapStep m, (10 : Nat) ∉ e.2 := by
      intro L
      induction L with
      | nil => intro m hm; exact hm
      | cons row L2 ih =>
        intro m hm
        simp only [List.foldl_cons]
        exact ih _ (roclMapStep_no_newline hm)
    exact main _ [] (by simp)
  · intro rows
    have main : ∀ (L : List (List PStr)) (ci ti : Nat) (acc : List (PStr × PStr)),
        (∀ e ∈ acc, pyStrip e.2 = e.2) →
        ∀ e ∈ L.foldl (schedStep ci ti) acc, pyStrip e.2 = e.2 := by
      intro L
      induction L with
      | nil => intro ci ti acc hm; exact hm
      | cons row L2 ih =>
        intro ci ti acc hm
        simp only [List.foldl_cons]
        exact ih ci ti _ (schedStep_stripped hm)
    unfold extractScheduleData
    rcases hh : findScheduleHeader rows with _ | ⟨hidx, headers⟩
    · simp
    · rcases hci : headers.findIdx? (fun h => containsSub (pstr ("class")) (pyLower h)) with _ | ci
      · simp [hci]
      · rcases hti : headers.findIdx? (fun h => containsSub (pstr ("teacher")) (pyLower h))
          with _ | ti
        · simp [hci, hti]
        · simp only [hci, hti]
          exact main _ ci ti [] (by simp)

/-- The schedule rows of the C9 counterexample: row 5 holds a teacher cell
with a newline, row 6 one with four consecutive blanks. -/
def c9rows : List (List PStr) :=
  [[], [], [], [],
   [[], pstr ("1"), [], [], pstr ("A\nB")],
   [[], pstr ("2"), [], [], pstr ("A    B")]]

/-- C9 counterexample: the ROCL builder stores the newline as blank-slash-
blank, not comma-blank as claimed; a single replacement pass leaves a double
blank in the stored text; and the JSON extractor stores the newline verbatim. -/
theorem claim_C9_counterexample :
    lookupA (roclExtractTeacherMap c9rows) (pstr ("1")) = some (pstr ("A / B")) ∧
    pstr ("A / B") ≠ pstr ("A, B") ∧
    lookupA (roclExtractTeacherMap c9rows) (pstr ("2")) = some (pstr ("A  B")) ∧
    containsSub [32, 32] (pstr ("A  B")) = true ∧
    extractScheduleData [[pstr ("Class"), pstr ("Teacher")], [pstr ("1"), pstr ("A\nB")]] =
      [(pstr ("1"), pstr ("A\nB"))] ∧
    (10 : Nat) ∈ pstr ("A\nB") :=
  ⟨by decide, by decide, by decide, by decide, by decide, by decide⟩

/-- Witness for C9 amended at the concrete schedule rows. -/
theorem claim_C9_witness :
    (10 : Nat) ∉ (pstr ("1"), pstr ("A / B")).2 ∧
    pyStrip (pstr ("1"), pstr ("A\nB")).2 = (pstr ("1"), pstr ("A\nB")).2 :=
  ⟨claim_C9_teacher_normalization_amended.1 c9rows (pstr ("1"), pstr ("A / B")) (by decide),
   claim_C9_teacher_normalization_amended.2
     [[pstr ("Class"), pstr ("Teacher")], [pstr ("1"), pstr ("A\nB")]]
     (pstr ("1"), pstr ("A\nB")) (by decide)⟩

/-! Model of `_create_output_workbook` and `_make_sheet_name`. -/

/-- The characters Excel forbids in sheet names: backslash, slash, star,
question mark, colon, open bracket, close bracket. -/
def bannedChars : List Nat := [92, 47, 42, 63, 58, 91, 93]

/-- Replace each forbidden character with a dash (45). -/
def sanitizeName (cls : PStr) : PStr := cls.map (fun c => if c ∈ bannedChars then 45 else c)

/-- Model of `_make_sheet_name`: the word Class, a blank, the sanitized class
value, truncated to 31 characters. -/
def makeSheetName (cls : PStr) : PStr := (pstr ("Class ") ++ sanitizeName cls).take 31

/-- Model of the per-class sheet writes of `_create_output_workbook`, as a
list of cell writes (row, column, value), with the imperative running row
index of the source: headers at row 1, one row per student from row 2, then
the teacher footer and the advisor footer. -/
def sheetCells (k t : PStr) (studs : List PStr) : List (Nat × Nat × PStr) :=
  let init : List (Nat × Nat × PStr) := [(1, 1, pstr ("Student Name")), (1, 2, pstr ("Class"))]
  let body := studs.foldl
    (fun (acc : List (Nat × Nat × PStr) × Nat) s =>
      (acc.1 ++ [(acc.2, 1, s), (acc.2, 2, k)], acc.2 + 1)) (init, 2)
  body.1 ++ [(body.2, 1, if t = [] then pstr ("Teacher:") else pstr ("Teacher: ") ++ t),
             (body.2 + 1, 1, pstr ("Advisor:"))]

/-- Model of `_create_output_workbook`: one sheet per class in sorted key
order, titled by `makeSheetName`. -/
def outputWorkbook (groups : List (PStr × PStr × List PStr)) :
    List (PStr × List (Nat × Nat × PStr)) :=
  (sortByKey (fun e => e.1) groups).map (fun e => (makeSheetName e.1, sheetCells e.1 e.2.1 e.2.2))

theorem sheetCells_foldl (k : PStr) (studs : List PStr) :
    ∀ (acc : List (Nat × Nat × PStr)) (r : Nat),
    studs.foldl (fun (a : List (Nat × Nat × PStr) × Nat) s =>
        (a.1 ++ [(a.2, 1, s), (a.2, 2, k)], a.2 + 1)) (acc, r) =
      (acc ++ ((List.range studs.length).map
        (fun i => [(r + i, 1, studs.getD i []), (r + i, 2, k)])).flatten, r + studs.length) := by
  induction studs with
  | nil => intro acc r; simp
  | cons s t ih =>
    intro acc r
    simp only [List.foldl_cons]
    rw [ih, Prod.mk.injEq]
    constructor
    case _ =>
      simp only [List.length_cons, List.range_succ_eq_map, List.map_cons, List.flatten_cons,
        List.map_map, List.getD_cons_zero, Nat.add_zero, List.append_assoc]
      congr 2
      congr 1
      apply List.map_congr_left
      intro i _
      simp only [Function.comp_apply, List.getD_cons_succ]
      have hr : r + 1 + i = r + (i + 1) := by omega
      rw [hr]
    case _ =>
      simp only [List.length_cons]
      omega

/-- C8 amended: blocks are emitted in lexicographically sorted order of the
group keys (one block per group); each block holds the 2-column header, one
row per distinct person with the group in column 2, then the teacher footer
and the advisor footer at the two rows after the people; and each block
title is the word Class, a blank, and the group key with the forbidden
characters replaced by dashes, truncated to 31 characters, hence free of
forbidden characters and at most 31 long. -/
theorem claim_C8_grouped_output_amended :
    (∀ groups : List (PStr × PStr × List PStr),
      ((sortByKey (fun e => e.1) groups).map (fun e => e.1)).Pairwise
        (fun a b => lexLe a b = true) ∧
      List.Perm ((sortByKey (fun e => e.1) groups).map (fun e => e.1))
        (groups.map (fun e => e.1)) ∧
      (outputWorkbook groups).map Prod.fst =
        (sortByKey (fun e => e.1) groups).map (fun e => makeSheetName e.1)) ∧
    (∀ (k t : PStr) (studs : List PStr),
      sheetCells k t studs =
        [(1, 1, pstr ("Student Name")), (1, 2, pstr ("Class"))] ++
        ((List.range studs.length).map
          (fun i => [(i + 2, 1, studs.getD i []), (i + 2, 2, k)])).flatten ++
        [(studs.length + 2, 1, if t = [] then pstr ("Teacher:") else pstr ("Teacher: ") ++ t),
         (studs.length + 3, 1, pstr ("Advisor:"))]) ∧
    (∀ k : PStr, makeSheetName k = (pstr ("Class ") ++ sanitizeName k).take 31 ∧
      (makeSheetName k).length ≤ 31 ∧ ∀ c ∈ makeSheetName k, c ∉ bannedChars) := by
  refine ⟨?_, ?_, ?_⟩
  · intro groups
    refine ⟨?_, ?_, ?_⟩
    · exact (pairwise_sortByKey (fun e => e.1) groups).map _ (fun a b h => h)
    · exact (perm_sortByKey (fun e => e.1) groups).map _
    · simp [outputWorkbook, List.map_map]
  · intro k t studs
    have h := sheetCells_foldl k studs [(1, 1, pstr ("Student Name")), (1, 2, pstr ("Class"))] 2
    simp only [sheetCells, h]
    have hmap : (List.range studs.length).map
        (fun i => [((i + 2 : Nat), (1 : Nat), studs.getD i []), ((i + 2 : Nat), (2 : Nat), k)]) =
        (List.range studs.length).map
        (fun i => [((2 + i : Nat), (1 : Nat), studs.getD i []), ((2 + i : Nat), (2 : Nat), k)]) := by
      apply List.map_congr_left
      intro i _
      have h2 : i + 2 = 2 + i := by omega
      rw [h2]
    have hlen1 : studs.length + 2 = 2 + studs.length := by omega
    have hlen2 : studs.length + 3 = 2 + studs.length + 1 := by omega
    conv_rhs => rw [hmap, hlen1, hlen2]
  · intro k
    refine ⟨rfl, ?_, ?_⟩
    · unfold makeSheetName
      calc ((pstr ("Class ") ++ sanitizeName k).take 31).length
          = min 31 (pstr ("Class ") ++ sanitizeName k).length := List.length_take 31 _
        _ ≤ 31 := Nat.min_le_left _ _
    · intro c hc
      have hc2 := List.take_subset 31 _ hc
      rcases List.mem_append.mp hc2 with h1 | h1
      · have hall : ∀ x ∈ pstr ("Class "), x ∉ bannedChars := by decide
        exact hall c h1
      · obtain ⟨y, _, hy⟩ := List.mem_map.mp h1
        rw [← hy]
        by_cases hb : y ∈ bannedChars
        · rw [if_pos hb]
          decide
        · rw [if_neg hb]
          exact hb

/-- C8 counterexample: the block title is not the sanitized group key
truncated to the length limit, as the claim states: the code prepends the
word Class and a blank before truncating, so for the key 6.1 the title is
Class 6.1, not 6.1. -/
theorem claim_C8_counterexample :
    makeSheetName (pstr ("6.1")) = pstr ("Class 6.1") ∧
    makeSheetName (pstr ("6.1")) ≠ (sanitizeName (pstr ("6.1"))).take 31 := by
  decide

theorem claim_C8_witness :
    sheetCells (pstr ("6A")) (pstr ("T")) [pstr ("Stu")] =
      [(1, 1, pstr ("Student Name")), (1, 2, pstr ("Class"))] ++
      ((List.range 1).map
        (fun i => [(i + 2, 1, [pstr ("Stu")].getD i []), (i + 2, 2, pstr ("6A"))])).flatten ++
      [(3, 1, pstr ("Teacher: ") ++ pstr ("T")), (4, 1, pstr ("Advisor:"))] ∧
    (67 ∈ makeSheetName (pstr ("6A[x]")) ∧ 67 ∉ bannedChars) := by
  refine ⟨?_, ?_, ?_⟩
  · have h := claim_C8_grouped_output_amended.2.1 (pstr ("6A")) (pstr ("T")) [pstr ("Stu")]
    rw [h]
    decide
  · decide
  · exact (claim_C8_grouped_output_amended.2.2 (pstr ("6A[x]"))).2.2 67 (by decide)
